import Mathlib

/-!
Verification of the pixel-art editor's rasterizer and quantizer core.

The definitions below are shallow embeddings of the TypeScript source:
* `src/src/webview/utils/paletteReducer.ts` — palette extraction (median cut,
  k-means, frequency), nearest-color search, remapping and Floyd–Steinberg
  dithering;
* `src/src/extension/extension.ts` (the `Canvas` webview component) — brush
  stamping, Bresenham line rasterization and flood fill;
* `src/src/webview/gl/renderer` — the `isPixelInBounds` bounds test.

Machine numbers are embedded as `ℕ` / `ℤ` where the code manipulates 8-bit
channel bytes and integer coordinates, and as `ℚ` where the code works with
JavaScript floating-point working values (all float operations performed by
the dithering code on the inputs used here are exact dyadic-rational
arithmetic, so `ℚ` is a faithful model).  JavaScript's `Math.round` (round
half toward +∞) and `Math.floor` are modelled explicitly.
-/

namespace PixelArt

/-- An RGBA color: four 8-bit channels, as in the `RGBA` tuple type of
`paletteReducer.ts` (`[number, number, number, number]`). -/
structure RGBA where
  r : ℕ
  g : ℕ
  b : ℕ
  a : ℕ
deriving DecidableEq

/-- Channel access `c[i]` used by the median-cut code (`c[channel]`). -/
def RGBA.ch (c : RGBA) : ℕ → ℕ
  | 0 => c.r
  | 1 => c.g
  | 2 => c.b
  | _ => c.a

/-- An `ImageData` value: width, height and the dense row-major pixel array.
The platform invariant is `data.length = width * height`; the TypeScript
loops over `width * height * 4` bytes are embedded as traversals of the
quadruple list. -/
structure ImageData where
  width : ℕ
  height : ℕ
  data : List RGBA
deriving DecidableEq

/-- colorDistance from `paletteReducer.ts`: squared Euclidean distance over
the R, G, B channels only (alpha excluded). -/
def colorDistance (c1 c2 : RGBA) : ℤ :=
  ((c1.r : ℤ) - c2.r) ^ 2 + ((c1.g : ℤ) - c2.g) ^ 2 + ((c1.b : ℤ) - c2.b) ^ 2

/-- Loop of `findNearestColor`: scan the palette keeping the first entry of
strictly minimal distance seen so far. -/
def findNearestGo (color : RGBA) : RGBA → ℤ → List RGBA → RGBA
  | nearest, _, [] => nearest
  | nearest, minDist, p :: ps =>
    if colorDistance color p < minDist then findNearestGo color p (colorDistance color p) ps
    else findNearestGo color nearest minDist ps

/-- findNearestColor from `paletteReducer.ts`.  The JS loop starts with
`nearest = palette[0]` and `minDist = Infinity`, so its first iteration
always replaces the state with `(palette[0], dist palette[0])`; the empty
palette (on which the JS code would return `undefined`) is mapped to a dummy
color and excluded by hypothesis in every theorem about this function. -/
def findNearestColor (color : RGBA) (palette : List RGBA) : RGBA :=
  match palette with
  | [] => ⟨0, 0, 0, 0⟩
  | p :: ps => findNearestGo color p (colorDistance color p) ps

/-- Action of `remapColors` on one pixel: fully transparent pixels are
zeroed; otherwise the nearest palette color's RGB is written and the pixel's
original alpha is preserved. -/
def remapPixel (palette : List RGBA) (p : RGBA) : RGBA :=
  if p.a = 0 then ⟨0, 0, 0, 0⟩
  else
    let nearest := findNearestColor p palette
    ⟨nearest.r, nearest.g, nearest.b, p.a⟩

/-- remapColors from `paletteReducer.ts`: the loop over the
`width * height` pixel quadruples, embedded as a map over the pixel list
(`data.length = width * height` by the `ImageData` invariant). -/
def remapColors (imageData : ImageData) (palette : List RGBA) : ImageData :=
  ⟨imageData.width, imageData.height, imageData.data.map (remapPixel palette)⟩

theorem findNearestGo_spec (color : RGBA) :
    ∀ (ps : List RGBA) (nearest : RGBA) (minDist : ℤ),
      colorDistance color nearest = minDist →
      (findNearestGo color nearest minDist ps = nearest ∨
        findNearestGo color nearest minDist ps ∈ ps) ∧
      colorDistance color (findNearestGo color nearest minDist ps) ≤ minDist ∧
      ∀ q ∈ ps, colorDistance color (findNearestGo color nearest minDist ps) ≤ colorDistance color q
  | [], nearest, minDist, h => by
    simp [findNearestGo, h]
  | p :: ps, nearest, minDist, h => by
    rw [findNearestGo]
    by_cases hlt : colorDistance color p < minDist
    · simp only [if_pos hlt]
      obtain ⟨hmem, hle, hall⟩ := findNearestGo_spec color ps p (colorDistance color p) rfl
      refine ⟨?_, by omega, ?_⟩
      · rcases hmem with h1 | h1
        · exact Or.inr (by simp [h1])
        · exact Or.inr (List.mem_cons_of_mem _ h1)
      · intro q hq
        rcases List.mem_cons.mp hq with rfl | hq
        · exact hle
        · exact hall q hq
    · simp only [if_neg hlt]
      obtain ⟨hmem, hle, hall⟩ := findNearestGo_spec color ps nearest minDist h
      refine ⟨?_, hle, ?_⟩
      · rcases hmem with h1 | h1
        · exact Or.inl h1
        · exact Or.inr (List.mem_cons_of_mem _ h1)
      · intro q hq
        rcases List.mem_cons.mp hq with rfl | hq
        · omega
        · exact hall q hq

theorem findNearestColor_mem (color : RGBA) (palette : List RGBA) (h : palette ≠ []) :
    findNearestColor color palette ∈ palette := by
  match palette with
  | [] => exact absurd rfl h
  | p :: ps =>
    obtain ⟨hmem, _, _⟩ := findNearestGo_spec color ps p (colorDistance color p) rfl
    rw [findNearestColor]
    rcases hmem with h1 | h1
    · simp [h1]
    · exact List.mem_cons_of_mem _ h1

theorem findNearestColor_min (color : RGBA) (palette : List RGBA) :
    ∀ q ∈ palette, colorDistance color (findNearestColor color palette) ≤ colorDistance color q := by
  match palette with
  | [] => intro q hq; simp at hq
  | p :: ps =>
    obtain ⟨_, hle, hall⟩ := findNearestGo_spec color ps p (colorDistance color p) rfl
    intro q hq
    rcases List.mem_cons.mp hq with rfl | hq
    · exact hle
    · exact hall q hq

theorem colorDistance_nonneg (c1 c2 : RGBA) : 0 ≤ colorDistance c1 c2 := by
  have h1 := sq_nonneg ((c1.r : ℤ) - c2.r)
  have h2 := sq_nonneg ((c1.g : ℤ) - c2.g)
  have h3 := sq_nonneg ((c1.b : ℤ) - c2.b)
  unfold colorDistance
  omega

theorem colorDistance_eq_zero {c1 c2 : RGBA} (h : colorDistance c1 c2 = 0) :
    c1.r = c2.r ∧ c1.g = c2.g ∧ c1.b = c2.b := by
  have h1 := sq_nonneg ((c1.r : ℤ) - c2.r)
  have h2 := sq_nonneg ((c1.g : ℤ) - c2.g)
  have h3 := sq_nonneg ((c1.b : ℤ) - c2.b)
  unfold colorDistance at h
  have hr : ((c1.r : ℤ) - c2.r) ^ 2 = 0 := by omega
  have hg : ((c1.g : ℤ) - c2.g) ^ 2 = 0 := by omega
  have hb : ((c1.b : ℤ) - c2.b) ^ 2 = 0 := by omega
  rw [pow_eq_zero_iff (by norm_num), sub_eq_zero] at hr hg hb
  exact ⟨by exact_mod_cast hr, by exact_mod_cast hg, by exact_mod_cast hb⟩

/-- The RGB of the nearest palette color to a color that itself carries the
RGB of some palette member is that RGB (distance 0 is minimal, and every
palette entry at distance 0 shares the RGB). -/
theorem findNearestColor_rgb_fixed (q : RGBA) (palette : List RGBA)
    (hmem : q ∈ palette) (c : RGBA) (hr : c.r = q.r) (hg : c.g = q.g) (hb : c.b = q.b) :
    (findNearestColor c palette).r = c.r ∧ (findNearestColor c palette).g = c.g ∧
      (findNearestColor c palette).b = c.b := by
  have hq : colorDistance c q = 0 := by
    unfold colorDistance
    rw [hr, hg, hb]
    ring
  have hle := findNearestColor_min c palette q hmem
  rw [hq] at hle
  have h0 : colorDistance c (findNearestColor c palette) = 0 :=
    le_antisymm hle (colorDistance_nonneg _ _)
  obtain ⟨h1, h2, h3⟩ := colorDistance_eq_zero h0
  exact ⟨h1.symm, h2.symm, h3.symm⟩

theorem remapPixel_idem (palette : List RGBA) (hp : palette ≠ []) (p : RGBA) :
    remapPixel palette (remapPixel palette p) = remapPixel palette p := by
  by_cases ha : p.a = 0
  · simp [remapPixel, ha]
  · have hmem := findNearestColor_mem p palette hp
    obtain ⟨h1, h2, h3⟩ := findNearestColor_rgb_fixed (findNearestColor p palette) palette hmem
      ⟨(findNearestColor p palette).r, (findNearestColor p palette).g,
        (findNearestColor p palette).b, p.a⟩ rfl rfl rfl
    simp only [remapPixel, if_neg ha, RGBA.mk.injEq]
    exact ⟨h1, h2, h3, trivial⟩

/-- C6: palette remapping without dithering is idempotent: remapping an
already-remapped buffer with the same non-empty palette returns the
identical buffer. -/
theorem remapColors_idempotent (imageData : ImageData) (palette : List RGBA)
    (hp : palette ≠ []) :
    remapColors (remapColors imageData palette) palette = remapColors imageData palette := by
  unfold remapColors
  simp only [ImageData.mk.injEq, true_and, List.map_map]
  apply List.map_congr_left
  intro p _
  exact remapPixel_idem palette hp p

/-- Witness for C6 at a concrete buffer and palette. -/
theorem remapColors_idempotent_witness :
    ([⟨0, 0, 0, 255⟩, ⟨255, 255, 255, 255⟩] : List RGBA) ≠ [] ∧
      remapColors (remapColors ⟨2, 1, [⟨10, 20, 30, 255⟩, ⟨200, 200, 200, 0⟩]⟩
          [⟨0, 0, 0, 255⟩, ⟨255, 255, 255, 255⟩]) [⟨0, 0, 0, 255⟩, ⟨255, 255, 255, 255⟩] =
        remapColors ⟨2, 1, [⟨10, 20, 30, 255⟩, ⟨200, 200, 200, 0⟩]⟩
          [⟨0, 0, 0, 255⟩, ⟨255, 255, 255, 255⟩] :=
  ⟨by decide,
    remapColors_idempotent ⟨2, 1, [⟨10, 20, 30, 255⟩, ⟨200, 200, 200, 0⟩]⟩
      [⟨0, 0, 0, 255⟩, ⟨255, 255, 255, 255⟩] (by decide)⟩

/-! ## Brush footprint (drawBrush loop bounds, extension.ts Canvas) -/

/-- Values taken by the `drawBrush` loop counter: `half = Math.floor(size/2)`
and `dy` runs from `-half` while `dy < size - half`.  The loop body executes
for exactly `size` consecutive integers starting at `-half`. -/
def brushRange (size : ℕ) : List ℤ :=
  (List.range size).map (fun (k : ℕ) => (k : ℤ) - (size : ℤ) / 2)

/-- Brush footprint offsets of `drawBrush`: the square of side `size`
centered with `half = Math.floor(size/2)`, produced in the source's loop
order (`dy` outer, `dx` inner); the pair is `(dx, dy)`. -/
def brushOffsets (size : ℕ) : List (ℤ × ℤ) :=
  (brushRange size).flatMap (fun dy => (brushRange size).map (fun dx => (dx, dy)))

theorem mem_brushRange (size : ℕ) (v : ℤ) :
    v ∈ brushRange size ↔ -((size : ℤ) / 2) ≤ v ∧ v ≤ (size : ℤ) - 1 - (size : ℤ) / 2 := by
  unfold brushRange
  rw [List.mem_map]
  constructor
  · rintro ⟨k, hk, he⟩
    rw [List.mem_range] at hk
    omega
  · rintro ⟨h1, h2⟩
    exact ⟨(v + (size : ℤ) / 2).toNat, List.mem_range.mpr (by omega), by omega⟩

/-- C9: for every brush size in [1,32] the footprint offsets are computed
with `half = ⌊size/2⌋` and consist of exactly the offsets of the bounding
box `[-half, size-1-half]` in each axis (the source implements only the
square shape), and the footprint is non-empty. -/
theorem brushOffsets_spec (size : ℕ) (h1 : 1 ≤ size) (h2 : size ≤ 32) :
    (∀ d : ℤ × ℤ, d ∈ brushOffsets size ↔
      (-((size : ℤ) / 2) ≤ d.1 ∧ d.1 ≤ (size : ℤ) - 1 - (size : ℤ) / 2 ∧
        -((size : ℤ) / 2) ≤ d.2 ∧ d.2 ≤ (size : ℤ) - 1 - (size : ℤ) / 2)) ∧
      brushOffsets size ≠ [] := by
  have hmem : ∀ d : ℤ × ℤ, d ∈ brushOffsets size ↔
      (-((size : ℤ) / 2) ≤ d.1 ∧ d.1 ≤ (size : ℤ) - 1 - (size : ℤ) / 2 ∧
        -((size : ℤ) / 2) ≤ d.2 ∧ d.2 ≤ (size : ℤ) - 1 - (size : ℤ) / 2) := by
    intro d
    unfold brushOffsets
    simp only [List.mem_flatMap, List.mem_map]
    constructor
    · rintro ⟨dy, hdy, dx, hdx, rfl⟩
      rw [mem_brushRange] at hdy hdx
      exact ⟨hdx.1, hdx.2, hdy.1, hdy.2⟩
    · rintro ⟨ha, hb, hc, hd⟩
      exact ⟨d.2, (mem_brushRange size d.2).mpr ⟨hc, hd⟩,
        d.1, (mem_brushRange size d.1).mpr ⟨ha, hb⟩, rfl⟩
  refine ⟨hmem, ?_⟩
  intro hnil
  have h0 : ((0 : ℤ), (0 : ℤ)) ∈ brushOffsets size := by
    rw [hmem]
    have : (size : ℤ) / 2 < size := by omega
    have : 0 ≤ (size : ℤ) / 2 := by positivity
    refine ⟨by omega, by omega, by omega, by omega⟩
  rw [hnil] at h0
  simp at h0

/-- Witness for C9 at size 4. -/
theorem brushOffsets_spec_witness :
    1 ≤ 4 ∧ 4 ≤ 32 ∧
      ((∀ d : ℤ × ℤ, d ∈ brushOffsets 4 ↔
        (-((4 : ℤ) / 2) ≤ d.1 ∧ d.1 ≤ (4 : ℤ) - 1 - (4 : ℤ) / 2 ∧
          -((4 : ℤ) / 2) ≤ d.2 ∧ d.2 ≤ (4 : ℤ) - 1 - (4 : ℤ) / 2)) ∧
        brushOffsets 4 ≠ []) :=
  ⟨by decide, by decide, brushOffsets_spec 4 (by decide) (by decide)⟩

/-! ## Canvas pixels and brush stamping (extension.ts Canvas component) -/

/-- A pixel of the 2D canvas the Canvas component draws on, in the exact
(rational-arithmetic) canvas model: non-premultiplied color channels on the
0–255 scale and an alpha on the 0–1 scale, as in CSS `rgba(r, g, b, a)`. -/
structure CanvasPixel where
  cr : ℚ
  cg : ℚ
  cb : ℚ
  ca : ℚ
deriving DecidableEq

/-- Modelled from the HTML canvas 2D default `source-over` compositing rule
that `ctx.fillRect` applies (the only painting primitive `drawBrush` uses
besides `clearRect`), in exact rational arithmetic:
`outA = srcA + dstA·(1−srcA)` and each non-premultiplied output channel is
`(srcC·srcA + dstC·dstA·(1−srcA)) / outA` (zero when `outA = 0`). -/
def sourceOver (src dst : CanvasPixel) : CanvasPixel :=
  let outA := src.ca + dst.ca * (1 - src.ca)
  if outA = 0 then ⟨0, 0, 0, 0⟩
  else
    ⟨(src.cr * src.ca + dst.cr * dst.ca * (1 - src.ca)) / outA,
     (src.cg * src.ca + dst.cg * dst.ca * (1 - src.ca)) / outA,
     (src.cb * src.ca + dst.cb * dst.ca * (1 - src.ca)) / outA,
     outA⟩

/-- The edit canvas: width, height and the dense row-major pixel list
(`px.length = width * height` for the canvases the component creates). -/
structure CanvasData where
  width : ℕ
  height : ℕ
  px : List CanvasPixel
deriving DecidableEq

/-- isPixelInBounds from the WebGL renderer:
`x >= 0 && x < imageWidth && y >= 0 && y < imageHeight`. -/
def isPixelInBounds (width height : ℕ) (x y : ℤ) : Prop :=
  0 ≤ x ∧ x < width ∧ 0 ≤ y ∧ y < height

instance (width height : ℕ) (x y : ℤ) : Decidable (isPixelInBounds width height x y) := by
  unfold isPixelInBounds
  infer_instance

/-- Row-major index of an in-bounds coordinate. -/
def canvasIdx (width : ℕ) (x y : ℤ) : ℕ :=
  y.toNat * width + x.toNat

/-- Pixel read at an integer coordinate (used only in bounds). -/
def CanvasData.pixelAt (c : CanvasData) (x y : ℤ) : CanvasPixel :=
  c.px.getD (canvasIdx c.width x y) ⟨0, 0, 0, 0⟩

/-- JavaScript `Math.round`: round half toward positive infinity. -/
def jsRound (q : ℚ) : ℤ :=
  ⌊q + 1 / 2⌋

/-- The `alphaValue = Math.round(opacity * 255)` computed by `drawBrush`. -/
def effectiveAlpha (opacity : ℚ) : ℕ :=
  (jsRound (opacity * 255)).toNat

/-- Body of the `drawBrush` double loop for one footprint offset: skip
out-of-bounds pixels, `clearRect` when erasing, otherwise `fillRect` with
`rgba(r, g, b, alphaValue/255)` composited source-over. -/
def brushStampStep (centerX centerY : ℤ) (r g b alphaValue : ℕ) (isEraser : Bool)
    (acc : CanvasData) (d : ℤ × ℤ) : CanvasData :=
  let px := centerX + d.1
  let py := centerY + d.2
  if isPixelInBounds acc.width acc.height px py then
    if isEraser then
      ⟨acc.width, acc.height, acc.px.set (canvasIdx acc.width px py) ⟨0, 0, 0, 0⟩⟩
    else
      ⟨acc.width, acc.height, acc.px.set (canvasIdx acc.width px py)
        (sourceOver ⟨r, g, b, (alphaValue : ℚ) / 255⟩ (acc.pixelAt px py))⟩
  else acc

/-- drawBrush from the Canvas component: stamp the square footprint of
`brushOffsets size` at the center, painting each in-bounds pixel. -/
def drawBrush (c : CanvasData) (centerX centerY : ℤ) (size : ℕ)
    (r g b alphaValue : ℕ) (isEraser : Bool) : CanvasData :=
  (brushOffsets size).foldl (brushStampStep centerX centerY r g b alphaValue isEraser) c

theorem canvasIdx_inj {width height : ℕ} {x y x' y' : ℤ}
    (h : isPixelInBounds width height x y) (h' : isPixelInBounds width height x' y')
    (he : canvasIdx width x y = canvasIdx width x' y') : x = x' ∧ y = y' := by
  obtain ⟨h1, h2, h3, h4⟩ := h
  obtain ⟨h1', h2', h3', h4'⟩ := h'
  unfold canvasIdx at he
  have hx : x.toNat < width := by omega
  have hx' : x'.toNat < width := by omega
  have hmod : (x.toNat + y.toNat * width) % width = (x'.toNat + y'.toNat * width) % width := by
    rw [show x.toNat + y.toNat * width = y.toNat * width + x.toNat from by omega] at *
    rw [show x'.toNat + y'.toNat * width = y'.toNat * width + x'.toNat from by omega] at *
    rw [he]
  rw [Nat.add_mul_mod_self_right, Nat.add_mul_mod_self_right,
    Nat.mod_eq_of_lt hx, Nat.mod_eq_of_lt hx'] at hmod
  have hyy : y.toNat * width = y'.toNat * width := by omega
  have hy : y.toNat = y'.toNat := by
    have hw : 0 < width := by omega
    exact Nat.eq_of_mul_eq_mul_right hw hyy
  omega

theorem canvasIdx_lt {width height : ℕ} {x y : ℤ}
    (h : isPixelInBounds width height x y) : canvasIdx width x y < width * height := by
  obtain ⟨h1, h2, h3, h4⟩ := h
  unfold canvasIdx
  have hx : x.toNat < width := by omega
  have hy : y.toNat < height := by omega
  calc y.toNat * width + x.toNat < y.toNat * width + width := by omega
    _ = (y.toNat + 1) * width := by ring
    _ ≤ height * width := Nat.mul_le_mul_right width (by omega)
    _ = width * height := Nat.mul_comm _ _

theorem brushRange_nodup (size : ℕ) : (brushRange size).Nodup := by
  unfold brushRange
  refine List.Nodup.map ?_ (List.nodup_range size)
  intro a b hab
  simp only [sub_left_inj, Int.natCast_inj] at hab
  exact hab

theorem brushOffsets_nodup (size : ℕ) : (brushOffsets size).Nodup := by
  unfold brushOffsets
  rw [List.nodup_flatMap]
  constructor
  · intro dy _
    exact List.Nodup.map (fun a b hab => by simpa using congrArg Prod.fst hab)
      (brushRange_nodup size)
  · refine (brushRange_nodup size).imp ?_
    intro dy dy' hne p hp hp'
    simp only [List.mem_map] at hp hp'
    obtain ⟨dx, _, rfl⟩ := hp
    obtain ⟨dx', _, he⟩ := hp'
    exact hne (by simpa using (congrArg Prod.snd he).symm)

/-- Characterization of one full (non-erasing) stamp pass over a duplicate-free
offset list: dimensions and length are preserved, every in-bounds pixel hit by
an offset becomes the source composited over its previous value, and every
other pixel is untouched. -/
theorem drawBrushGo_pixelAt (centerX centerY : ℤ) (r g b alphaValue : ℕ) :
    ∀ (l : List (ℤ × ℤ)) (acc : CanvasData), l.Nodup →
      acc.px.length = acc.width * acc.height →
      (l.foldl (brushStampStep centerX centerY r g b alphaValue false) acc).width = acc.width ∧
      (l.foldl (brushStampStep centerX centerY r g b alphaValue false) acc).height = acc.height ∧
      (l.foldl (brushStampStep centerX centerY r g b alphaValue false) acc).px.length = acc.px.length ∧
      ∀ x y, isPixelInBounds acc.width acc.height x y →
        (l.foldl (brushStampStep centerX centerY r g b alphaValue false) acc).pixelAt x y =
          if (x - centerX, y - centerY) ∈ l then
            sourceOver ⟨r, g, b, (alphaValue : ℚ) / 255⟩ (acc.pixelAt x y)
          else acc.pixelAt x y
  | [], acc, _, hlen => by
    refine ⟨rfl, rfl, rfl, fun x y _ => ?_⟩
    simp
  | d :: rest, acc, hnd, hlen => by
    rw [List.foldl_cons]
    have hnd' : rest.Nodup := (List.nodup_cons.mp hnd).2
    have hdrest : d ∉ rest := (List.nodup_cons.mp hnd).1
    by_cases hib : isPixelInBounds acc.width acc.height (centerX + d.1) (centerY + d.2)
    · set src := (⟨r, g, b, (alphaValue : ℚ) / 255⟩ : CanvasPixel) with hsrc
      have hstep : brushStampStep centerX centerY r g b alphaValue false acc d =
          ⟨acc.width, acc.height, acc.px.set (canvasIdx acc.width (centerX + d.1) (centerY + d.2))
            (sourceOver src (acc.pixelAt (centerX + d.1) (centerY + d.2)))⟩ := by
        unfold brushStampStep
        rw [if_pos hib]
        rfl
      rw [hstep]
      set acc' : CanvasData := ⟨acc.width, acc.height,
        acc.px.set (canvasIdx acc.width (centerX + d.1) (centerY + d.2))
          (sourceOver src (acc.pixelAt (centerX + d.1) (centerY + d.2)))⟩ with hacc'
      have hlen' : acc'.px.length = acc'.width * acc'.height := by
        simp only [hacc', List.length_set]
        exact hlen
      obtain ⟨hw, hh, hl, hpix⟩ := drawBrushGo_pixelAt centerX centerY r g b alphaValue rest acc' hnd' hlen'
      refine ⟨hw, hh, by simpa [hacc', List.length_set] using hl, ?_⟩
      intro x y hxy
      have hxy' : isPixelInBounds acc'.width acc'.height x y := hxy
      rw [hpix x y hxy']
      by_cases hd : (x - centerX, y - centerY) = d
      · have hx : x = centerX + d.1 := by
          have := congrArg Prod.fst hd
          simp at this
          omega
        have hy : y = centerY + d.2 := by
          have := congrArg Prod.snd hd
          simp at this
          omega
        have hrest : (x - centerX, y - centerY) ∉ rest := hd ▸ hdrest
        rw [if_neg hrest, if_pos (by simp [hd])]
        subst hx hy
        show acc'.px.getD (canvasIdx acc'.width (centerX + d.1) (centerY + d.2)) _ =
          sourceOver src (acc.pixelAt (centerX + d.1) (centerY + d.2))
        have hidx : canvasIdx acc.width (centerX + d.1) (centerY + d.2) < acc.px.length := by
          rw [hlen]
          exact canvasIdx_lt hib
        rw [List.getD_eq_getElem?_getD, List.getElem?_set_self hidx]
        rfl
      · have hne : canvasIdx acc.width x y ≠
            canvasIdx acc.width (centerX + d.1) (centerY + d.2) := by
          intro he
          obtain ⟨hx, hy⟩ := canvasIdx_inj hxy hib he
          exact hd (by rw [hx, hy]; simp)
        have hread : acc'.pixelAt x y = acc.pixelAt x y := by
          show acc'.px.getD (canvasIdx acc'.width x y) _ = acc.px.getD (canvasIdx acc.width x y) _
          rw [List.getD_eq_getElem?_getD, List.getD_eq_getElem?_getD]
          show ((acc.px.set (canvasIdx acc.width (centerX + d.1) (centerY + d.2))
            (sourceOver src (acc.pixelAt (centerX + d.1) (centerY + d.2))))[canvasIdx acc.width x y]?).getD _ =
            (acc.px[canvasIdx acc.width x y]?).getD _
          rw [List.getElem?_set_ne (fun h => hne h.symm)]
        rw [hread]
        by_cases hmem : (x - centerX, y - centerY) ∈ rest
        · rw [if_pos hmem, if_pos (List.mem_cons_of_mem _ hmem)]
        · rw [if_neg hmem, if_neg (by simp [hd, hmem])]
    · have hstep : brushStampStep centerX centerY r g b alphaValue false acc d = acc := by
        unfold brushStampStep
        rw [if_neg hib]
      rw [hstep]
      obtain ⟨hw, hh, hl, hpix⟩ := drawBrushGo_pixelAt centerX centerY r g b alphaValue rest acc hnd' hlen
      refine ⟨hw, hh, hl, ?_⟩
      intro x y hxy
      rw [hpix x y hxy]
      by_cases hd : (x - centerX, y - centerY) = d
      · exfalso
        apply hib
        have hx : d.1 = x - centerX := by rw [← hd]
        have hy : d.2 = y - centerY := by rw [← hd]
        rw [hx, hy]
        obtain ⟨h1, h2, h3, h4⟩ := hxy
        exact ⟨by omega, by omega, by omega, by omega⟩
      · by_cases hmem : (x - centerX, y - centerY) ∈ rest
        · rw [if_pos hmem, if_pos (List.mem_cons_of_mem _ hmem)]
        · rw [if_neg hmem, if_neg (by simp [hd, hmem])]

theorem sourceOver_ca (src dst : CanvasPixel) :
    (sourceOver src dst).ca = src.ca + dst.ca * (1 - src.ca) := by
  unfold sourceOver
  by_cases h : src.ca + dst.ca * (1 - src.ca) = 0
  · simp [h]
  · simp [h]

theorem sourceOver_fullAlpha (r g b : ℚ) (dst : CanvasPixel) :
    sourceOver ⟨r, g, b, 1⟩ dst = ⟨r, g, b, 1⟩ := by
  unfold sourceOver
  norm_num

theorem effectiveAlpha_one : effectiveAlpha 1 = 255 := by
  unfold effectiveAlpha jsRound
  norm_num
  rfl

theorem CanvasData.ext_pixelAt (c₁ c₂ : CanvasData) (hw : c₁.width = c₂.width)
    (hh : c₁.height = c₂.height) (hl₁ : c₁.px.length = c₁.width * c₁.height)
    (hl₂ : c₂.px.length = c₂.width * c₂.height)
    (hp : ∀ x y, isPixelInBounds c₁.width c₁.height x y → c₁.pixelAt x y = c₂.pixelAt x y) :
    c₁ = c₂ := by
  obtain ⟨w₁, h₁, p₁⟩ := c₁
  obtain ⟨w₂, h₂, p₂⟩ := c₂
  simp only at hw hh hl₁ hl₂ hp
  subst hw hh
  simp only [CanvasData.mk.injEq, true_and]
  apply List.ext_getElem?
  intro n
  by_cases hn : n < w₁ * h₁
  · have hw0 : 0 < w₁ := by
      rcases Nat.eq_zero_or_pos w₁ with h | h
      · subst h
        simp at hn
      · exact h
    have hmodlt : n % w₁ < w₁ := Nat.mod_lt n hw0
    have hdivlt : n / w₁ < h₁ := by
      rw [Nat.div_lt_iff_lt_mul hw0]
      rw [Nat.mul_comm] at hn
      exact hn
    have hib : isPixelInBounds w₁ h₁ ((n % w₁ : ℕ) : ℤ) ((n / w₁ : ℕ) : ℤ) := by
      refine ⟨by positivity, by exact_mod_cast hmodlt, by positivity, by exact_mod_cast hdivlt⟩
    have hidx : canvasIdx w₁ ((n % w₁ : ℕ) : ℤ) ((n / w₁ : ℕ) : ℤ) = n := by
      unfold canvasIdx
      simp only [Int.toNat_natCast]
      rw [Nat.mul_comm]
      exact Nat.div_add_mod n w₁
    have hthis := hp _ _ hib
    unfold CanvasData.pixelAt at hthis
    simp only [hidx] at hthis
    rw [List.getD_eq_getElem?_getD, List.getD_eq_getElem?_getD] at hthis
    have h1 : n < p₁.length := by rw [hl₁]; exact hn
    have h2 : n < p₂.length := by rw [hl₂]; exact hn
    rw [List.getElem?_eq_getElem h1, List.getElem?_eq_getElem h2] at hthis ⊢
    simpa using hthis
  · rw [List.getElem?_eq_none (by rw [hl₁]; exact Nat.le_of_not_lt hn),
      List.getElem?_eq_none (by rw [hl₂]; exact Nat.le_of_not_lt hn)]

/-- Characterization of a non-erasing `drawBrush` call: dimensions and pixel
count are preserved, each in-bounds footprint pixel becomes the brush color
source-over-composited onto it, and all other pixels are untouched. -/
theorem drawBrush_pixelAt (c : CanvasData) (cx cy : ℤ) (size r g b av : ℕ)
    (hlen : c.px.length = c.width * c.height) :
    (drawBrush c cx cy size r g b av false).width = c.width ∧
    (drawBrush c cx cy size r g b av false).height = c.height ∧
    (drawBrush c cx cy size r g b av false).px.length = c.px.length ∧
    ∀ x y, isPixelInBounds c.width c.height x y →
      (drawBrush c cx cy size r g b av false).pixelAt x y =
        if (x - cx, y - cy) ∈ brushOffsets size then
          sourceOver ⟨(r : ℚ), (g : ℚ), (b : ℚ), (av : ℚ) / 255⟩ (c.pixelAt x y)
        else c.pixelAt x y :=
  drawBrushGo_pixelAt cx cy r g b av (brushOffsets size) c (brushOffsets_nodup size) hlen

/-- C1 (amended): `drawBrush` paints through canvas `source-over`
compositing, not by direct overwrite.  At full opacity the composite
degenerates to a direct overwrite of `(r,g,b,1)` on every in-bounds
footprint pixel and repeated stamping is idempotent; at any intermediate
opacity (`0 < alphaValue < 255`) a second stamp strictly increases the
alpha of any footprint pixel whose alpha is still below 1, so opacity does
accumulate across stamps. -/
theorem drawBrush_stamp_semantics (c : CanvasData) (cx cy : ℤ) (size r g b : ℕ)
    (hlen : c.px.length = c.width * c.height) :
    (∀ x y, isPixelInBounds c.width c.height x y →
        (x - cx, y - cy) ∈ brushOffsets size →
        (drawBrush c cx cy size r g b (effectiveAlpha 1) false).pixelAt x y =
          ⟨(r : ℚ), (g : ℚ), (b : ℚ), 1⟩) ∧
    drawBrush (drawBrush c cx cy size r g b (effectiveAlpha 1) false) cx cy size r g b
        (effectiveAlpha 1) false =
      drawBrush c cx cy size r g b (effectiveAlpha 1) false ∧
    (∀ alphaValue : ℕ, 0 < alphaValue → alphaValue < 255 →
      ∀ x y, isPixelInBounds c.width c.height x y → (x - cx, y - cy) ∈ brushOffsets size →
        (c.pixelAt x y).ca < 1 →
        ((drawBrush c cx cy size r g b alphaValue false).pixelAt x y).ca <
          ((drawBrush (drawBrush c cx cy size r g b alphaValue false) cx cy size r g b
            alphaValue false).pixelAt x y).ca) := by
  have hsrc1 : (⟨(r : ℚ), (g : ℚ), (b : ℚ), ((effectiveAlpha 1 : ℕ) : ℚ) / 255⟩ : CanvasPixel) =
      ⟨(r : ℚ), (g : ℚ), (b : ℚ), 1⟩ := by
    rw [effectiveAlpha_one]
    norm_num
  obtain ⟨hw, hh, hl, hpix⟩ := drawBrush_pixelAt c cx cy size r g b (effectiveAlpha 1) hlen
  have hfull : ∀ x y, isPixelInBounds c.width c.height x y →
      (x - cx, y - cy) ∈ brushOffsets size →
      (drawBrush c cx cy size r g b (effectiveAlpha 1) false).pixelAt x y =
        ⟨(r : ℚ), (g : ℚ), (b : ℚ), 1⟩ := by
    intro x y hxy hmem
    rw [hpix x y hxy, if_pos hmem, hsrc1]
    exact sourceOver_fullAlpha _ _ _ _
  refine ⟨hfull, ?_, ?_⟩
  · have hc₁l : (drawBrush c cx cy size r g b (effectiveAlpha 1) false).px.length =
        (drawBrush c cx cy size r g b (effectiveAlpha 1) false).width *
          (drawBrush c cx cy size r g b (effectiveAlpha 1) false).height := by
      rw [hw, hh, hl, hlen]
    obtain ⟨hw₂, hh₂, hl₂, hpix₂⟩ :=
      drawBrush_pixelAt (drawBrush c cx cy size r g b (effectiveAlpha 1) false)
        cx cy size r g b (effectiveAlpha 1) hc₁l
    refine CanvasData.ext_pixelAt _ _ hw₂ hh₂ (by rw [hl₂, hw₂, hh₂]; exact hc₁l) hc₁l ?_
    intro x y hxy
    have hxy₁ : isPixelInBounds (drawBrush c cx cy size r g b (effectiveAlpha 1) false).width
        (drawBrush c cx cy size r g b (effectiveAlpha 1) false).height x y := by
      rwa [hw₂, hh₂] at hxy
    have hxyc : isPixelInBounds c.width c.height x y := by
      rwa [hw, hh] at hxy₁
    rw [hpix₂ x y hxy₁]
    by_cases hmem : (x - cx, y - cy) ∈ brushOffsets size
    · rw [if_pos hmem, hsrc1, sourceOver_fullAlpha, hfull x y hxyc hmem]
    · rw [if_neg hmem]
  · intro av hav0 hav255 x y hxy hmem ha
    obtain ⟨hwa, hha, hla, hpixa⟩ := drawBrush_pixelAt c cx cy size r g b av hlen
    have hc₁l : (drawBrush c cx cy size r g b av false).px.length =
        (drawBrush c cx cy size r g b av false).width *
          (drawBrush c cx cy size r g b av false).height := by
      rw [hwa, hha, hla, hlen]
    obtain ⟨hw₂, hh₂, hl₂, hpix₂⟩ :=
      drawBrush_pixelAt (drawBrush c cx cy size r g b av false) cx cy size r g b av hc₁l
    have hxy₁ : isPixelInBounds (drawBrush c cx cy size r g b av false).width
        (drawBrush c cx cy size r g b av false).height x y := by
      rwa [hwa, hha]
    rw [hpixa x y hxy, if_pos hmem, hpix₂ x y hxy₁, if_pos hmem,
      hpixa x y hxy, if_pos hmem, sourceOver_ca, sourceOver_ca, sourceOver_ca]
    set s : ℚ := (av : ℚ) / 255 with hs
    set a₀ : ℚ := (c.pixelAt x y).ca with ha₀
    have hs0 : 0 < s := by
      rw [hs]
      positivity
    have hs1 : s < 1 := by
      rw [hs, div_lt_one (by norm_num)]
      exact_mod_cast hav255
    nlinarith [mul_pos (mul_pos (by linarith : (0:ℚ) < 1 - s) hs0) (by linarith : (0:ℚ) < 1 - a₀)]

/-- Witness for C1's amended theorem: at full opacity a stamp on a 1-pixel
canvas writes (255,0,0,1) directly. -/
theorem drawBrush_stamp_semantics_witness :
    (drawBrush ⟨1, 1, [⟨0, 0, 0, 0⟩]⟩ 0 0 1 255 0 0 (effectiveAlpha 1) false).pixelAt 0 0 =
      ⟨(255 : ℚ), 0, 0, 1⟩ :=
  ((drawBrush_stamp_semantics ⟨1, 1, [⟨0, 0, 0, 0⟩]⟩ 0 0 1 255 0 0 (by decide)).1) 0 0
    (by decide) (by decide)

theorem effectiveAlpha_half : effectiveAlpha (1 / 2) = 128 := by
  unfold effectiveAlpha jsRound
  norm_num
  rfl

/-- C1 counterexample: stamping the same pixel twice at opacity 1/2
(alphaValue 128) produces a different pixel value than stamping it once —
the written alpha accumulates (128/255, then more after the second stamp)
because `fillRect` composites source-over instead of overwriting. -/
theorem drawBrush_opacity_accumulates :
    drawBrush (drawBrush ⟨1, 1, [⟨0, 0, 0, 0⟩]⟩ 0 0 1 255 0 0 (effectiveAlpha (1 / 2)) false)
        0 0 1 255 0 0 (effectiveAlpha (1 / 2)) false ≠
      drawBrush ⟨1, 1, [⟨0, 0, 0, 0⟩]⟩ 0 0 1 255 0 0 (effectiveAlpha (1 / 2)) false := by
  intro heq
  obtain ⟨hw, hh, hl, hpix⟩ := drawBrush_pixelAt ⟨1, 1, [⟨0, 0, 0, 0⟩]⟩ 0 0 1 255 0 0
    (effectiveAlpha (1 / 2)) (by decide)
  have hib : isPixelInBounds (1 : ℕ) (1 : ℕ) 0 0 := by decide
  have hmem : ((0 : ℤ) - 0, (0 : ℤ) - 0) ∈ brushOffsets 1 := by decide
  have hc₁l : (drawBrush ⟨1, 1, [⟨0, 0, 0, 0⟩]⟩ 0 0 1 255 0 0 (effectiveAlpha (1 / 2)) false).px.length =
      (drawBrush ⟨1, 1, [⟨0, 0, 0, 0⟩]⟩ 0 0 1 255 0 0 (effectiveAlpha (1 / 2)) false).width *
        (drawBrush ⟨1, 1, [⟨0, 0, 0, 0⟩]⟩ 0 0 1 255 0 0 (effectiveAlpha (1 / 2)) false).height := by
    rw [hw, hh, hl]
    decide
  obtain ⟨hw₂, hh₂, hl₂, hpix₂⟩ :=
    drawBrush_pixelAt (drawBrush ⟨1, 1, [⟨0, 0, 0, 0⟩]⟩ 0 0 1 255 0 0 (effectiveAlpha (1 / 2)) false)
      0 0 1 255 0 0 (effectiveAlpha (1 / 2)) hc₁l
  have hib₂ : isPixelInBounds
      (drawBrush ⟨1, 1, [⟨0, 0, 0, 0⟩]⟩ 0 0 1 255 0 0 (effectiveAlpha (1 / 2)) false).width
      (drawBrush ⟨1, 1, [⟨0, 0, 0, 0⟩]⟩ 0 0 1 255 0 0 (effectiveAlpha (1 / 2)) false).height 0 0 := by
    rw [hw, hh]
    exact hib
  have hca := congrArg (fun d : CanvasData => (d.pixelAt 0 0).ca) heq
  simp only at hca
  rw [hpix₂ 0 0 hib₂, if_pos hmem, hpix 0 0 hib, if_pos hmem] at hca
  simp only [sourceOver_ca] at hca
  have hp0 : ((⟨1, 1, [⟨0, 0, 0, 0⟩]⟩ : CanvasData).pixelAt 0 0).ca = 0 := rfl
  rw [hp0, effectiveAlpha_half] at hca
  norm_num at hca

/-! ## Bresenham line rasterization (drawLineOnContext) -/

/-- Two points are 8-adjacent: each coordinate differs by at most one and
the points are distinct (king move). -/
def adjacent8 (p q : ℤ × ℤ) : Prop :=
  (q.1 - p.1 = 1 ∨ q.1 - p.1 = 0 ∨ q.1 - p.1 = -1) ∧
  (q.2 - p.2 = 1 ∨ q.2 - p.2 = 0 ∨ q.2 - p.2 = -1) ∧ q ≠ p

/-- Loop of `drawLineOnContext`: the `while (true)` Bresenham iteration
(`e2 = 2*err`; step `cx` by `sx` when `e2 > -dy`, step `cy` by `sy` when
`e2 < dx`, adjusting `err` by `-dy` / `+dx`), collecting every stamped
center including both endpoints.  One unit of fuel is consumed per executed
iteration; the source's loop is unbounded, and `bresLoop_spec` shows the
fuel passed by `bresenhamPoints` is never exhausted. -/
def bresLoop (x1 y1 dx dy sx sy : ℤ) : ℕ → ℤ → ℤ → ℤ → Option (List (ℤ × ℤ))
  | 0, _, _, _ => none
  | fuel + 1, cx, cy, err =>
    if cx = x1 ∧ cy = y1 then some [(cx, cy)]
    else
      let e2 := 2 * err
      let cx' := if e2 > -dy then cx + sx else cx
      let err1 := if e2 > -dy then err - dy else err
      let cy' := if e2 < dx then cy + sy else cy
      let err2 := if e2 < dx then err1 + dx else err1
      (bresLoop x1 y1 dx dy sx sy fuel cx' cy' err2).map (fun pts => (cx, cy) :: pts)

/-- Center points visited by `drawLineOnContext` for the segment
`(x0,y0)-(x1,y1)`: `dx = |x1-x0|`, `dy = |y1-y0|`, step signs from the
coordinate comparisons, error accumulator starting at `dx - dy`. -/
def bresenhamPoints (x0 y0 x1 y1 : ℤ) : Option (List (ℤ × ℤ)) :=
  bresLoop x1 y1 |x1 - x0| |y1 - y0| (if x0 < x1 then 1 else -1) (if y0 < y1 then 1 else -1)
    (|x1 - x0| + |y1 - y0| + 1).toNat x0 y0 (|x1 - x0| - |y1 - y0|)


theorem adjacent8_of (px py qx qy : ℤ) (hx : qx - px = 1 ∨ qx - px = 0 ∨ qx - px = -1)
    (hy : qy - py = 1 ∨ qy - py = 0 ∨ qy - py = -1) (hne : ¬(qx = px ∧ qy = py)) :
    adjacent8 (px, py) (qx, qy) := by
  refine ⟨hx, hy, ?_⟩
  intro heq
  rw [Prod.mk.injEq] at heq
  exact hne heq

theorem bresLoop_spec (x0 y0 x1 y1 dx dy sx sy : ℤ)
    (hdx : 0 ≤ dx) (hdy : 0 ≤ dy)
    (hsx : sx * dx = x1 - x0) (hsy : sy * dy = y1 - y0)
    (hsx1 : sx = 1 ∨ sx = -1) (hsy1 : sy = 1 ∨ sy = -1) :
    ∀ (fuel : ℕ) (i j : ℤ), 0 ≤ i → i ≤ dx → 0 ≤ j → j ≤ dy →
      dx - i + (dy - j) < (fuel : ℤ) →
      ∃ pts, bresLoop x1 y1 dx dy sx sy fuel (x0 + sx * i) (y0 + sy * j)
          (dx - dy - i * dy + j * dx) = some pts ∧
        pts.head? = some (x0 + sx * i, y0 + sy * j) ∧
        pts.getLast? = some (x1, y1) ∧ List.Chain' adjacent8 pts := by
  intro fuel
  induction fuel with
  | zero =>
    intro i j hi0 hidx hj0 hjdy hfuel
    exfalso
    push_cast at hfuel
    omega
  | succ fuel ih =>
    intro i j hi0 hidx hj0 hjdy hfuel
    by_cases hend : x0 + sx * i = x1 ∧ y0 + sy * j = y1
    · refine ⟨[(x0 + sx * i, y0 + sy * j)], ?_, rfl, ?_, ?_⟩
      · rw [bresLoop, if_pos hend]
      · simp [hend.1, hend.2]
      · simp
    · have hiend : i = dx → x0 + sx * i = x1 := by
        intro h
        rw [h]
        linarith [hsx]
      have hjend : j = dy → y0 + sy * j = y1 := by
        intro h
        rw [h]
        linarith [hsy]
      have hne : ¬(i = dx ∧ j = dy) := fun h => hend ⟨hiend h.1, hjend h.2⟩
      have F1 : i = dx → ¬(2 * (dx - dy - i * dy + j * dx) > -dy) := by
        intro hieq hgt
        have hjlt : j < dy := by
          rcases not_and_or.mp hne with h | h
          · exact absurd hieq h
          · omega
        have herr : dx - dy - i * dy + j * dx = dx * (1 + j - dy) - dy := by
          rw [hieq]
          ring
        have hprod : dx * (1 + j - dy) ≤ 0 :=
          mul_nonpos_of_nonneg_of_nonpos hdx (by omega)
        rw [herr] at hgt
        linarith
      have F2 : j = dy → ¬(2 * (dx - dy - i * dy + j * dx) < dx) := by
        intro hjeq hlt
        have hilt : i < dx := by
          rcases not_and_or.mp hne with h | h
          · omega
          · exact absurd hjeq h
        have herr : dx - dy - i * dy + j * dx = dy * (dx - 1 - i) + dx := by
          rw [hjeq]
          ring
        have hprod : 0 ≤ dy * (dx - 1 - i) := mul_nonneg hdy (by omega)
        rw [herr] at hlt
        linarith
      have F3 : (2 * (dx - dy - i * dy + j * dx) > -dy) ∨
          (2 * (dx - dy - i * dy + j * dx) < dx) := by
        by_contra hcon
        push_neg at hcon
        obtain ⟨h1, h2⟩ := hcon
        have hdx0 : dx = 0 ∧ dy = 0 := by omega
        rcases not_and_or.mp hne with h | h <;> omega
      rw [bresLoop, if_neg hend]
      by_cases hc1 : 2 * (dx - dy - i * dy + j * dx) > -dy <;>
        by_cases hc2 : 2 * (dx - dy - i * dy + j * dx) < dx
      · -- both step: diagonal
        have hidx' : i < dx := by
          by_contra hilt
          exact F1 (by omega) hc1
        have hjdy' : j < dy := by
          by_contra hjlt
          exact F2 (by omega) hc2
        obtain ⟨pts', hsome, hhead, hlast, hchain⟩ := ih (i + 1) (j + 1)
          (by omega) (by omega) (by omega) (by omega) (by push_cast at hfuel ⊢; omega)
        simp only [if_pos hc1, if_pos hc2]
        have hsome' : bresLoop x1 y1 dx dy sx sy fuel (x0 + sx * i + sx) (y0 + sy * j + sy)
            (dx - dy - i * dy + j * dx - dy + dx) = some pts' := by
          rw [show x0 + sx * i + sx = x0 + sx * (i + 1) from by ring,
            show y0 + sy * j + sy = y0 + sy * (j + 1) from by ring,
            show dx - dy - i * dy + j * dx - dy + dx = dx - dy - (i + 1) * dy + (j + 1) * dx from by ring]
          exact hsome
        rw [hsome']
        match pts', hhead with
        | q :: tail, hhead =>
          have hq : q = (x0 + sx * (i + 1), y0 + sy * (j + 1)) := by
            simpa using hhead
          refine ⟨(x0 + sx * i, y0 + sy * j) :: q :: tail, rfl, rfl, ?_, ?_⟩
          · rw [List.getLast?_cons_cons]
            exact hlast
          · rw [List.chain'_cons]
            refine ⟨?_, hchain⟩
            rw [hq]
            apply adjacent8_of <;>
              rcases hsx1 with h | h <;> rcases hsy1 with h' | h' <;> subst h <;> subst h' <;> omega
      · -- x step only
        have hidx' : i < dx := by
          by_contra hilt
          exact F1 (by omega) hc1
        obtain ⟨pts', hsome, hhead, hlast, hchain⟩ := ih (i + 1) j
          (by omega) (by omega) (by omega) (by omega) (by push_cast at hfuel ⊢; omega)
        simp only [if_pos hc1, if_neg hc2]
        have hsome' : bresLoop x1 y1 dx dy sx sy fuel (x0 + sx * i + sx) (y0 + sy * j)
            (dx - dy - i * dy + j * dx - dy) = some pts' := by
          rw [show x0 + sx * i + sx = x0 + sx * (i + 1) from by ring,
            show dx - dy - i * dy + j * dx - dy = dx - dy - (i + 1) * dy + j * dx from by ring]
          exact hsome
        rw [hsome']
        match pts', hhead with
        | q :: tail, hhead =>
          have hq : q = (x0 + sx * (i + 1), y0 + sy * j) := by
            simpa using hhead
          refine ⟨(x0 + sx * i, y0 + sy * j) :: q :: tail, rfl, rfl, ?_, ?_⟩
          · rw [List.getLast?_cons_cons]
            exact hlast
          · rw [List.chain'_cons]
            refine ⟨?_, hchain⟩
            rw [hq]
            apply adjacent8_of <;>
              rcases hsx1 with h | h <;> subst h <;> omega
      · -- y step only
        have hjdy' : j < dy := by
          by_contra hjlt
          exact F2 (by omega) hc2
        obtain ⟨pts', hsome, hhead, hlast, hchain⟩ := ih i (j + 1)
          (by omega) (by omega) (by omega) (by omega) (by push_cast at hfuel ⊢; omega)
        simp only [if_neg hc1, if_pos hc2]
        have hsome' : bresLoop x1 y1 dx dy sx sy fuel (x0 + sx * i) (y0 + sy * j + sy)
            (dx - dy - i * dy + j * dx + dx) = some pts' := by
          rw [show y0 + sy * j + sy = y0 + sy * (j + 1) from by ring,
            show dx - dy - i * dy + j * dx + dx = dx - dy - i * dy + (j + 1) * dx from by ring]
          exact hsome
        rw [hsome']
        match pts', hhead with
        | q :: tail, hhead =>
          have hq : q = (x0 + sx * i, y0 + sy * (j + 1)) := by
            simpa using hhead
          refine ⟨(x0 + sx * i, y0 + sy * j) :: q :: tail, rfl, rfl, ?_, ?_⟩
          · rw [List.getLast?_cons_cons]
            exact hlast
          · rw [List.chain'_cons]
            refine ⟨?_, hchain⟩
            rw [hq]
            apply adjacent8_of <;>
              rcases hsy1 with h' | h' <;> subst h' <;> omega
      · exfalso
        rcases F3 with h | h
        · exact hc1 h
        · exact hc2 h

/-- drawLineOnContext from the Canvas component: stamp the brush at every
Bresenham path point between the two endpoints (the `none` fuel-exhaustion
branch is unreachable, as `bresenham_path_and_unit_brush_line` shows). -/
def drawLineOnContext (c : CanvasData) (x0 y0 x1 y1 : ℤ) (size r g b alphaValue : ℕ)
    (isEraser : Bool) : CanvasData :=
  match bresenhamPoints x0 y0 x1 y1 with
  | some pts => pts.foldl (fun acc p => drawBrush acc p.1 p.2 size r g b alphaValue isEraser) c
  | none => c

/-- C8: the Bresenham rasterizer always terminates with a path whose
consecutive points are 8-adjacent and which starts at `(x0,y0)` and ends at
`(x1,y1)`; and drawing the line `(0,0)-(3,0)` with a 1-pixel square brush at
full alpha on a transparent 4×2 canvas sets exactly the four pixels
`(0,0),(1,0),(2,0),(3,0)`. -/
theorem bresenham_path_and_unit_brush_line :
    (∀ x0 y0 x1 y1 : ℤ, ∃ pts, bresenhamPoints x0 y0 x1 y1 = some pts ∧
      pts.head? = some (x0, y0) ∧ pts.getLast? = some (x1, y1) ∧
      List.Chain' adjacent8 pts) ∧
    drawLineOnContext
        ⟨4, 2, [⟨0, 0, 0, 0⟩, ⟨0, 0, 0, 0⟩, ⟨0, 0, 0, 0⟩, ⟨0, 0, 0, 0⟩,
          ⟨0, 0, 0, 0⟩, ⟨0, 0, 0, 0⟩, ⟨0, 0, 0, 0⟩, ⟨0, 0, 0, 0⟩]⟩ 0 0 3 0 1 0 0 0 255 false =
      ⟨4, 2, [⟨0, 0, 0, 1⟩, ⟨0, 0, 0, 1⟩, ⟨0, 0, 0, 1⟩, ⟨0, 0, 0, 1⟩,
        ⟨0, 0, 0, 0⟩, ⟨0, 0, 0, 0⟩, ⟨0, 0, 0, 0⟩, ⟨0, 0, 0, 0⟩]⟩ := by
  constructor
  · intro x0 y0 x1 y1
    have hdx : (0 : ℤ) ≤ |x1 - x0| := abs_nonneg _
    have hdy : (0 : ℤ) ≤ |y1 - y0| := abs_nonneg _
    have hsx : (if x0 < x1 then (1 : ℤ) else -1) * |x1 - x0| = x1 - x0 := by
      split_ifs with h
      · rw [abs_of_nonneg (by omega)]
        ring
      · rw [abs_of_nonpos (by omega)]
        ring
    have hsy : (if y0 < y1 then (1 : ℤ) else -1) * |y1 - y0| = y1 - y0 := by
      split_ifs with h
      · rw [abs_of_nonneg (by omega)]
        ring
      · rw [abs_of_nonpos (by omega)]
        ring
    have hsx1 : (if x0 < x1 then (1 : ℤ) else -1) = 1 ∨ (if x0 < x1 then (1 : ℤ) else -1) = -1 := by
      split_ifs <;> simp
    have hsy1 : (if y0 < y1 then (1 : ℤ) else -1) = 1 ∨ (if y0 < y1 then (1 : ℤ) else -1) = -1 := by
      split_ifs <;> simp
    obtain ⟨pts, hsome, hhead, hlast, hchain⟩ := bresLoop_spec x0 y0 x1 y1 |x1 - x0| |y1 - y0|
      (if x0 < x1 then (1 : ℤ) else -1) (if y0 < y1 then (1 : ℤ) else -1)
      hdx hdy hsx hsy hsx1 hsy1 ((|x1 - x0| + |y1 - y0| + 1).toNat) 0 0
      le_rfl hdx le_rfl hdy (by rw [Int.toNat_of_nonneg (by omega)]; omega)
    simp only [mul_zero, zero_mul, add_zero, sub_zero] at hsome hhead
    unfold bresenhamPoints
    exact ⟨pts, hsome, hhead, hlast, hchain⟩
  · have hb : bresenhamPoints 0 0 3 0 = some [(0, 0), (1, 0), (2, 0), (3, 0)] := by decide
    have hoff : brushOffsets 1 = [(0, 0)] := by decide
    have hK : ∀ q : CanvasPixel, q = ⟨0, 0, 0, 0⟩ →
        sourceOver ⟨((0 : ℕ) : ℚ), ((0 : ℕ) : ℚ), ((0 : ℕ) : ℚ), ((255 : ℕ) : ℚ) / 255⟩ q =
          ⟨0, 0, 0, 1⟩ := by
      intro q hq
      subst hq
      unfold sourceOver
      norm_num
    unfold drawLineOnContext
    rw [hb]
    simp only [List.foldl_cons, List.foldl_nil]
    unfold drawBrush
    rw [hoff]
    simp only [List.foldl_cons, List.foldl_nil]
    unfold brushStampStep
    norm_num [isPixelInBounds, canvasIdx, CanvasData.pixelAt]
    simp only [sourceOver_fullAlpha]
    decide

/-! ## Palette extraction (paletteReducer.ts)

JavaScript's `Array.prototype.sort` with a numeric comparator is a stable
sort consistent with the comparator; it is modelled by `List.insertionSort`
(the canonical stable sort) on the corresponding total preorder. -/

/-- Dedup of `medianCut` / `kMeans`: the JS `Map` keyed by the string
`"r,g,b,a"` keeps first-seen insertion order, and re-setting an existing key
stores an equal quadruple at its old position, so the map's value list is
the first-seen deduplication of the input. -/
def uniqueColors (colors : List RGBA) : List RGBA :=
  colors.foldl (fun acc c => if c ∈ acc then acc else acc ++ [c]) []

/-- extractAllColors: every pixel with non-zero alpha, in row-major order
(`data.length = width * height` by the `ImageData` invariant). -/
def extractAllColors (imageData : ImageData) : List RGBA :=
  imageData.data.filter (fun c => c.a != 0)

/-- One step of the frequency-map construction of
`extractColorsWithFrequency`: bump an existing entry's count (the JS `Map`
keeps its position) or append a new entry with count 1. -/
def bumpColor (acc : List (RGBA × ℕ)) (c : RGBA) : List (RGBA × ℕ) :=
  if acc.any (fun e => e.1 == c) then
    acc.map (fun e => if e.1 = c then (e.1, e.2 + 1) else e)
  else acc ++ [(c, 1)]

/-- extractColorsWithFrequency: insertion-ordered color/count map over the
opaque pixels. -/
def extractColorsWithFrequency (imageData : ImageData) : List (RGBA × ℕ) :=
  (imageData.data.filter (fun c => c.a != 0)).foldl bumpColor []

/-- frequencyBased: sort entries by descending count (`(a,b) => b.count -
a.count`, stable, so ties keep first-encounter order) and take the first
`targetCount` colors. -/
def frequencyBased (colorMap : List (RGBA × ℕ)) (targetCount : ℕ) : List RGBA :=
  ((List.insertionSort (fun a b : RGBA × ℕ => b.2 ≤ a.2) colorMap).take targetCount).map
    (fun e => e.1)

/-- Per-channel minimum of a box, with the source's initial value 255. -/
def boxChannelMin (box : List RGBA) (kh : ℕ) : ℕ :=
  box.foldl (fun m c => min m (c.ch kh)) 255

/-- Per-channel maximum of a box, with the source's initial value 0. -/
def boxChannelMax (box : List RGBA) (kh : ℕ) : ℕ :=
  box.foldl (fun m c => max m (c.ch kh)) 0

/-- Channel range `max - min` of a box. -/
def boxRange (box : List RGBA) (kh : ℕ) : ℤ :=
  (boxChannelMax box kh : ℤ) - boxChannelMin box kh

/-- Scan of the median-cut split loop: the `(range, box index, channel)`
with the globally largest range (strict `>` update, so first-seen wins
ties), skipping boxes with at most one color; the state starts at
`(-1, 0, 0)`. -/
def scanBoxes (boxes : List (List RGBA)) : ℤ × ℕ × ℕ :=
  (List.range boxes.length).foldl (fun st i =>
    if (boxes.getD i []).length ≤ 1 then st
    else [0, 1, 2].foldl (fun st' kh =>
      if boxRange (boxes.getD i []) kh > st'.1 then (boxRange (boxes.getD i []) kh, i, kh)
      else st') st)
    (-1, 0, 0)

/-- The chosen box of the split step, sorted ascending (stably) by the
chosen channel. -/
def sortedBox (boxes : List (List RGBA)) : List RGBA :=
  List.insertionSort (fun a b : RGBA => a.ch (scanBoxes boxes).2.2 ≤ b.ch (scanBoxes boxes).2.2)
    (boxes.getD (scanBoxes boxes).2.1 [])

/-- One split of the median-cut loop: replace the chosen box in place
(`splice(maxBoxIndex, 1, box1, box2)`) by the two halves of its sorted
colors, split at the structural median `⌊length/2⌋`. -/
def splitBox (boxes : List (List RGBA)) : List (List RGBA) :=
  boxes.take (scanBoxes boxes).2.1 ++
    [(sortedBox boxes).take ((sortedBox boxes).length / 2),
      (sortedBox boxes).drop ((sortedBox boxes).length / 2)] ++
    boxes.drop ((scanBoxes boxes).2.1 + 1)

/-- The `while (boxes.length < targetCount)` split loop of `medianCut`:
stop when the boxes reach the target count or the best range is ≤ 0;
otherwise split the box with the globally largest channel range.  Each
executed iteration adds one box, so the `targetCount` units of fuel passed
by `medianCut` (starting from one box) are never exhausted. -/
def medianCutLoop (targetCount : ℕ) : ℕ → List (List RGBA) → List (List RGBA)
  | 0, boxes => boxes
  | fuel + 1, boxes =>
    if boxes.length < targetCount then
      if (scanBoxes boxes).1 ≤ 0 then boxes
      else medianCutLoop targetCount fuel (splitBox boxes)
    else boxes

/-- JavaScript `Math.round(s / n)` for a nonnegative sum `s` and positive
count `n`: `⌊s/n + 1/2⌋ = ⌊(2s+n)/(2n)⌋`. -/
def jsRoundDiv (s n : ℕ) : ℕ :=
  (2 * s + n) / (2 * n)

/-- Rounded per-channel mean of a box (also the k-means centroid mean). -/
def boxMean (box : List RGBA) : RGBA :=
  ⟨jsRoundDiv (box.foldl (fun s c => s + c.r) 0) box.length,
   jsRoundDiv (box.foldl (fun s c => s + c.g) 0) box.length,
   jsRoundDiv (box.foldl (fun s c => s + c.b) 0) box.length,
   jsRoundDiv (box.foldl (fun s c => s + c.a) 0) box.length⟩

/-- medianCut from `paletteReducer.ts`. -/
def medianCut (colors : List RGBA) (targetCount : ℕ) : List RGBA :=
  if colors.length = 0 then []
  else if colors.length ≤ targetCount then uniqueColors colors
  else
    ((medianCutLoop targetCount targetCount [colors]).filter (fun b => !b.isEmpty)).map boxMean

/-- Minimum squared distance from a color to a list of centroids; the JS
loop starts at `Infinity`, and the list is non-empty at every call site
(the seeding loop always holds at least one centroid), so the first
iteration replaces the initial value. -/
def minSqDistTo (c : RGBA) : List RGBA → ℤ
  | [] => 0
  | q :: qs => qs.foldl (fun m q' => min m (colorDistance c q')) (colorDistance c q)

/-- Farthest-point seeding loop of `kMeans`: while fewer than `targetCount`
centroids exist, append the color maximizing its minimum squared distance
to the existing centroids (strict `>` from `-1`, first-seen ties).  Each
iteration adds one centroid, so the `targetCount` units of fuel passed by
`kMeans` (starting from one centroid) are never exhausted. -/
def seedLoop (colors : List RGBA) (targetCount : ℕ) : ℕ → List RGBA → List RGBA
  | 0, centroids => centroids
  | fuel + 1, centroids =>
    if centroids.length < targetCount then
      seedLoop colors targetCount fuel
        (centroids ++ [(colors.foldl (fun st c =>
          if minSqDistTo c centroids > st.1 then (minSqDistTo c centroids, c) else st)
          (-1, colors.headD ⟨0, 0, 0, 0⟩)).2])
    else centroids

/-- Index-tracking loop of the cluster-assignment argmin (strict `<` from
`Infinity`, first index wins). -/
def nearestIndexGo (c : RGBA) : ℕ → ℤ → ℕ → List RGBA → ℕ
  | best, _, _, [] => best
  | best, bestD, i, q :: qs =>
    if colorDistance c q < bestD then nearestIndexGo c i (colorDistance c q) (i + 1) qs
    else nearestIndexGo c best bestD (i + 1) qs

/-- Index of the nearest centroid to a color. -/
def nearestIndex (c : RGBA) (centroids : List RGBA) : ℕ :=
  match centroids with
  | [] => 0
  | q :: qs => nearestIndexGo c 0 (colorDistance c q) 1 qs

/-- Centroid update for one cluster: an empty cluster keeps its centroid
unchanged; otherwise the rounded mean replaces the centroid only when its
RGB differs (the flag records whether it did). -/
def centroidStep (cluster : List RGBA) (cent : RGBA) : RGBA × Bool :=
  if cluster.isEmpty then (cent, false)
  else
    let m := boxMean cluster
    if m.r = cent.r ∧ m.g = cent.g ∧ m.b = cent.b then (cent, false) else (m, true)

/-- One refinement iteration of `kMeans`: assign every color to its nearest
centroid (first minimal index), then update each centroid from its cluster;
the flag tells whether any centroid's RGB changed. -/
def kMeansUpdate (colors centroids : List RGBA) : List RGBA × Bool :=
  let news := centroids.mapIdx (fun i cent =>
    centroidStep (colors.filter (fun c => nearestIndex c centroids == i)) cent)
  (news.map (fun e => e.1), news.any (fun e => e.2))

/-- The bounded refinement loop of `kMeans` (`for iter < maxIterations`,
breaking as soon as no centroid changed), returning the final centroids and
the number of iterations actually executed. -/
def kMeansIterate (colors : List RGBA) : ℕ → List RGBA → List RGBA × ℕ
  | 0, centroids => (centroids, 0)
  | fuel + 1, centroids =>
    if (kMeansUpdate colors centroids).2 then
      ((kMeansIterate colors fuel (kMeansUpdate colors centroids).1).1,
        (kMeansIterate colors fuel (kMeansUpdate colors centroids).1).2 + 1)
    else ((kMeansUpdate colors centroids).1, 1)

/-- kMeans from `paletteReducer.ts` with the iteration cap 20; `pick` is
the injected `Math.floor(Math.random() * colors.length)` index choosing the
first centroid. -/
def kMeans (colors : List RGBA) (targetCount : ℕ) (pick : ℕ) : List RGBA :=
  if colors.length = 0 then []
  else if colors.length ≤ targetCount then uniqueColors colors
  else
    (kMeansIterate colors 20
      (seedLoop colors targetCount targetCount [colors.getD pick ⟨0, 0, 0, 0⟩])).1

/-- The three palette-extraction algorithms. -/
inductive Algorithm
  | mediancut
  | kmeans
  | frequency
deriving DecidableEq

/-- extractPalette from `paletteReducer.ts`; `pick` is the injected random
index used only by k-means. -/
def extractPalette (imageData : ImageData) (colorCount : ℕ) (algorithm : Algorithm)
    (pick : ℕ) : List RGBA :=
  match algorithm with
  | .frequency => frequencyBased (extractColorsWithFrequency imageData) colorCount
  | .mediancut => medianCut (extractAllColors imageData) colorCount
  | .kmeans => kMeans (extractAllColors imageData) colorCount pick

theorem uniqueColors_go_prefix :
    ∀ (l : List RGBA) (acc : List RGBA),
      ∃ t, l.foldl (fun acc c => if c ∈ acc then acc else acc ++ [c]) acc = acc ++ t ∧
        t.length ≤ l.length
  | [], acc => ⟨[], by simp⟩
  | c :: l, acc => by
    rw [List.foldl_cons]
    by_cases hc : c ∈ acc
    · rw [if_pos hc]
      obtain ⟨t, ht, hlen⟩ := uniqueColors_go_prefix l acc
      exact ⟨t, ht, by simp only [List.length_cons]; omega⟩
    · rw [if_neg hc]
      obtain ⟨t, ht, hlen⟩ := uniqueColors_go_prefix l (acc ++ [c])
      refine ⟨[c] ++ t, by rw [ht, List.append_assoc], ?_⟩
      simp only [List.length_append, List.length_cons, List.length_nil]
      omega

theorem uniqueColors_length_le (l : List RGBA) : (uniqueColors l).length ≤ l.length := by
  obtain ⟨t, ht, hlen⟩ := uniqueColors_go_prefix l []
  unfold uniqueColors
  rw [ht]
  simpa using hlen

theorem uniqueColors_ne_nil (l : List RGBA) (h : l ≠ []) : uniqueColors l ≠ [] := by
  match l with
  | c :: l =>
    unfold uniqueColors
    rw [List.foldl_cons, if_neg (List.not_mem_nil c)]
    obtain ⟨t, ht, _⟩ := uniqueColors_go_prefix l ([] ++ [c])
    rw [ht]
    simp

theorem freqMap_keys :
    ∀ (l : List RGBA) (acc : List (RGBA × ℕ)),
      (l.foldl bumpColor acc).map Prod.fst =
        l.foldl (fun a c => if c ∈ a then a else a ++ [c]) (acc.map Prod.fst)
  | [], _ => rfl
  | c :: l, acc => by
    rw [List.foldl_cons, List.foldl_cons, freqMap_keys l (bumpColor acc c)]
    congr 1
    unfold bumpColor
    by_cases hc : acc.any (fun e => e.1 == c)
    · rw [if_pos hc]
      have hmem : c ∈ acc.map Prod.fst := by
        simp only [List.any_eq_true, beq_iff_eq] at hc
        obtain ⟨e, he, heq⟩ := hc
        exact List.mem_map.mpr ⟨e, he, heq⟩
      rw [if_pos hmem, List.map_map]
      apply List.map_congr_left
      intro e _
      by_cases he : e.1 = c <;> simp [he]
    · rw [if_neg hc]
      have hmem : c ∉ acc.map Prod.fst := by
        simp only [List.any_eq_true, beq_iff_eq] at hc
        push_neg at hc
        intro hmem
        obtain ⟨e, he, heq⟩ := List.mem_map.mp hmem
        exact hc e he heq
      rw [if_neg hmem]
      simp

theorem extractColorsWithFrequency_keys (img : ImageData) :
    (extractColorsWithFrequency img).map Prod.fst = uniqueColors (extractAllColors img) := by
  unfold extractColorsWithFrequency uniqueColors extractAllColors
  exact freqMap_keys _ []

/-- C2 (amended): when the requested color count is at least the number of
opaque pixels (not merely the number of distinct colors), median-cut and
k-means return exactly the distinct opaque colors deduplicated in
first-seen order, and the frequency algorithm returns exactly the distinct
opaque colors as a set — but ordered by descending frequency (stable on
ties), not first-seen order. -/
theorem extractPalette_small_image (img : ImageData) (colorCount pick : ℕ)
    (hpix : (extractAllColors img).length ≤ colorCount) :
    extractPalette img colorCount .mediancut pick = uniqueColors (extractAllColors img) ∧
    extractPalette img colorCount .kmeans pick = uniqueColors (extractAllColors img) ∧
    (extractPalette img colorCount .frequency pick).Perm
      (uniqueColors (extractAllColors img)) := by
  refine ⟨?_, ?_, ?_⟩
  · show medianCut (extractAllColors img) colorCount = _
    unfold medianCut
    by_cases h0 : (extractAllColors img).length = 0
    · rw [if_pos h0, List.length_eq_zero.mp h0]
      rfl
    · rw [if_neg h0, if_pos hpix]
  · show kMeans (extractAllColors img) colorCount pick = _
    unfold kMeans
    by_cases h0 : (extractAllColors img).length = 0
    · rw [if_pos h0, List.length_eq_zero.mp h0]
      rfl
    · rw [if_neg h0, if_pos hpix]
  · show (frequencyBased (extractColorsWithFrequency img) colorCount).Perm _
    unfold frequencyBased
    have hlen : (List.insertionSort (fun a b : RGBA × ℕ => b.2 ≤ a.2)
        (extractColorsWithFrequency img)).length ≤ colorCount := by
      rw [(List.perm_insertionSort _ _).length_eq]
      have hkeys := congrArg List.length (extractColorsWithFrequency_keys img)
      rw [List.length_map] at hkeys
      calc (extractColorsWithFrequency img).length
          = (uniqueColors (extractAllColors img)).length := hkeys
        _ ≤ (extractAllColors img).length := uniqueColors_length_le _
        _ ≤ colorCount := hpix
    rw [List.take_of_length_le hlen]
    have hperm := (List.perm_insertionSort (fun a b : RGBA × ℕ => b.2 ≤ a.2)
      (extractColorsWithFrequency img)).map Prod.fst
    rw [extractColorsWithFrequency_keys img] at hperm
    exact hperm

/-- Witness for C2's amended theorem on a 2-pixel 2-color image. -/
theorem extractPalette_small_image_witness :
    (extractAllColors ⟨2, 1, [⟨255, 0, 0, 255⟩, ⟨0, 0, 255, 255⟩]⟩).length ≤ 2 ∧
      (extractPalette ⟨2, 1, [⟨255, 0, 0, 255⟩, ⟨0, 0, 255, 255⟩]⟩ 2 .mediancut 0 =
          uniqueColors (extractAllColors ⟨2, 1, [⟨255, 0, 0, 255⟩, ⟨0, 0, 255, 255⟩]⟩) ∧
        extractPalette ⟨2, 1, [⟨255, 0, 0, 255⟩, ⟨0, 0, 255, 255⟩]⟩ 2 .kmeans 0 =
          uniqueColors (extractAllColors ⟨2, 1, [⟨255, 0, 0, 255⟩, ⟨0, 0, 255, 255⟩]⟩) ∧
        (extractPalette ⟨2, 1, [⟨255, 0, 0, 255⟩, ⟨0, 0, 255, 255⟩]⟩ 2 .frequency 0).Perm
          (uniqueColors (extractAllColors ⟨2, 1, [⟨255, 0, 0, 255⟩, ⟨0, 0, 255, 255⟩]⟩))) :=
  ⟨by decide, extractPalette_small_image ⟨2, 1, [⟨255, 0, 0, 255⟩, ⟨0, 0, 255, 255⟩]⟩ 2 0
    (by decide)⟩

/-- A 4×1 image with one red and three blue pixels: two distinct opaque
colors, first seen in the order red, blue. -/
def img4 : ImageData :=
  ⟨4, 1, [⟨255, 0, 0, 255⟩, ⟨0, 0, 255, 255⟩, ⟨0, 0, 255, 255⟩, ⟨0, 0, 255, 255⟩]⟩

/-- C2 counterexample: on `img4` with colorCount 3 ≥ 2 distinct colors,
median-cut returns `[blue, blue, red]` (a duplicated palette, not the
deduplicated color list) and frequency returns `[blue, red]` (descending
frequency, not first-seen order), both different from the first-seen
distinct list `[red, blue]`. -/
theorem extractPalette_large_count_not_distinct :
    uniqueColors (extractAllColors img4) = [⟨255, 0, 0, 255⟩, ⟨0, 0, 255, 255⟩] ∧
    (uniqueColors (extractAllColors img4)).length ≤ 3 ∧
    extractPalette img4 3 .mediancut 0 =
      [⟨0, 0, 255, 255⟩, ⟨0, 0, 255, 255⟩, ⟨255, 0, 0, 255⟩] ∧
    extractPalette img4 3 .mediancut 0 ≠ uniqueColors (extractAllColors img4) ∧
    extractPalette img4 3 .frequency 0 = [⟨0, 0, 255, 255⟩, ⟨255, 0, 0, 255⟩] ∧
    extractPalette img4 3 .frequency 0 ≠ uniqueColors (extractAllColors img4) := by
  refine ⟨by decide, by decide, by decide, by decide, by decide, by decide⟩

theorem kMeansUpdate_length (colors centroids : List RGBA) :
    (kMeansUpdate colors centroids).1.length = centroids.length := by
  unfold kMeansUpdate
  simp

theorem kMeansIterate_length (colors : List RGBA) :
    ∀ (fuel : ℕ) (centroids : List RGBA),
      (kMeansIterate colors fuel centroids).1.length = centroids.length
  | 0, _ => rfl
  | fuel + 1, centroids => by
    rw [kMeansIterate]
    by_cases h : (kMeansUpdate colors centroids).2
    · simp only [if_pos h]
      show (kMeansIterate colors fuel (kMeansUpdate colors centroids).1).1.length = _
      rw [kMeansIterate_length colors fuel _]
      exact kMeansUpdate_length colors centroids
    · simp only [if_neg h]
      exact kMeansUpdate_length colors centroids

theorem kMeansIterate_le (colors : List RGBA) :
    ∀ (fuel : ℕ) (centroids : List RGBA), (kMeansIterate colors fuel centroids).2 ≤ fuel
  | 0, _ => le_rfl
  | fuel + 1, centroids => by
    rw [kMeansIterate]
    by_cases h : (kMeansUpdate colors centroids).2
    · simp only [if_pos h]
      show (kMeansIterate colors fuel (kMeansUpdate colors centroids).1).2 + 1 ≤ fuel + 1
      have := kMeansIterate_le colors fuel (kMeansUpdate colors centroids).1
      omega
    · simp only [if_neg h]
      show 1 ≤ fuel + 1
      omega

theorem seedLoop_length (colors : List RGBA) (targetCount : ℕ) :
    ∀ (fuel : ℕ) (centroids : List RGBA), centroids.length ≤ targetCount →
      targetCount ≤ centroids.length + fuel →
      (seedLoop colors targetCount fuel centroids).length = targetCount
  | 0, centroids, h1, h2 => by
    rw [seedLoop]
    omega
  | fuel + 1, centroids, h1, h2 => by
    rw [seedLoop]
    by_cases h : centroids.length < targetCount
    · rw [if_pos h]
      rw [seedLoop_length colors targetCount fuel _
        (by simp only [List.length_append, List.length_cons, List.length_nil]; omega)
        (by simp only [List.length_append, List.length_cons, List.length_nil]; omega)]
    · rw [if_neg h]
      omega

/-- C3 (amended): k-means returns exactly `targetCount` centroids whenever
the image has more opaque pixels than the target (regardless of the random
seed choice), and exactly the distinct-color count only when the opaque
pixel count is at most the target; its refinement loop executes at most 20
iterations. -/
theorem kMeans_count_and_iterations (colors : List RGBA) (targetCount pick : ℕ)
    (h1 : 1 ≤ targetCount) :
    (kMeans colors targetCount pick).length =
      (if colors.length ≤ targetCount then (uniqueColors colors).length else targetCount) ∧
    ∀ centroids : List RGBA, (kMeansIterate colors 20 centroids).2 ≤ 20 := by
  refine ⟨?_, fun centroids => kMeansIterate_le colors 20 centroids⟩
  unfold kMeans
  by_cases h0 : colors.length = 0
  · rw [if_pos h0, if_pos (by omega), List.length_eq_zero.mp h0]
    rfl
  · rw [if_neg h0]
    by_cases hs : colors.length ≤ targetCount
    · rw [if_pos hs, if_pos hs]
    · rw [if_neg hs, if_neg hs, kMeansIterate_length]
      exact seedLoop_length colors targetCount targetCount _
        (by simp only [List.length_cons, List.length_nil]; omega)
        (by simp only [List.length_cons, List.length_nil]; omega)

/-- Witness for C3's amended theorem. -/
theorem kMeans_count_and_iterations_witness :
    1 ≤ 3 ∧
      ((kMeans (extractAllColors img4) 3 0).length =
        (if (extractAllColors img4).length ≤ 3 then
          (uniqueColors (extractAllColors img4)).length else 3) ∧
      ∀ centroids : List RGBA,
        (kMeansIterate (extractAllColors img4) 20 centroids).2 ≤ 20) :=
  ⟨by decide, kMeans_count_and_iterations (extractAllColors img4) 3 0 (by decide)⟩

/-- C3 counterexample: on `img4` (4 opaque pixels, 2 distinct colors) with
colorCount 3, k-means returns 3 centroids, not
`min(colorCount, distinctColors) = 2`. -/
theorem kMeans_count_exceeds_distinct :
    (kMeans (extractAllColors img4) 3 0).length = 3 ∧
      (uniqueColors (extractAllColors img4)).length = 2 ∧
      min 3 (uniqueColors (extractAllColors img4)).length = 2 := by
  refine ⟨by decide, by decide, by decide⟩

theorem scanBoxes_spec (boxes : List (List RGBA)) :
    0 < (scanBoxes boxes).1 →
    (scanBoxes boxes).2.1 < boxes.length ∧
      1 < (boxes.getD (scanBoxes boxes).2.1 []).length := by
  unfold scanBoxes
  refine List.foldlRecOn (motive := fun st : ℤ × ℕ × ℕ =>
      0 < st.1 → st.2.1 < boxes.length ∧ 1 < (boxes.getD st.2.1 []).length)
    (List.range boxes.length) _ (-1, 0, 0) ?_ ?_
  · intro h0
    norm_num at h0
  · intro st hP i hi
    rw [List.mem_range] at hi
    by_cases hlen : (boxes.getD i []).length ≤ 1
    · rw [if_pos hlen]
      exact hP
    · rw [if_neg hlen]
      have pres : ∀ (st' : ℤ × ℕ × ℕ) (kh : ℕ),
          (0 < st'.1 → st'.2.1 < boxes.length ∧ 1 < (boxes.getD st'.2.1 []).length) →
          (0 < (if boxRange (boxes.getD i []) kh > st'.1
              then (boxRange (boxes.getD i []) kh, i, kh) else st').1 →
            ((if boxRange (boxes.getD i []) kh > st'.1
              then (boxRange (boxes.getD i []) kh, i, kh) else st').2.1 < boxes.length ∧
              1 < (boxes.getD (if boxRange (boxes.getD i []) kh > st'.1
                then (boxRange (boxes.getD i []) kh, i, kh) else st').2.1 []).length)) := by
        intro st' kh hP'
        by_cases hgt : boxRange (boxes.getD i []) kh > st'.1
        · simp only [if_pos hgt]
          intro _
          exact ⟨hi, by omega⟩
        · simp only [if_neg hgt]
          exact hP'
      simp only [List.foldl_cons, List.foldl_nil]
      exact pres _ _ (pres _ _ (pres _ _ hP))

theorem medianCutLoop_inv (targetCount : ℕ) :
    ∀ (fuel : ℕ) (boxes : List (List RGBA)),
      boxes ≠ [] → (∀ b ∈ boxes, b ≠ []) → boxes.length ≤ targetCount →
      medianCutLoop targetCount fuel boxes ≠ [] ∧
      (∀ b ∈ medianCutLoop targetCount fuel boxes, b ≠ []) ∧
      (medianCutLoop targetCount fuel boxes).length ≤ targetCount
  | 0, boxes, h1, h2, h3 => by
    rw [medianCutLoop]
    exact ⟨h1, h2, h3⟩
  | fuel + 1, boxes, h1, h2, h3 => by
    rw [medianCutLoop]
    by_cases hlt : boxes.length < targetCount
    · rw [if_pos hlt]
      by_cases hr : (scanBoxes boxes).1 ≤ 0
      · rw [if_pos hr]
        exact ⟨h1, h2, h3⟩
      · rw [if_neg hr]
        obtain ⟨hidx, hblen⟩ := scanBoxes_spec boxes (by omega)
        have hsortlen : (sortedBox boxes).length =
            (boxes.getD (scanBoxes boxes).2.1 []).length :=
          (List.perm_insertionSort _ _).length_eq
        have hs2 : 2 ≤ (sortedBox boxes).length := by omega
        apply medianCutLoop_inv targetCount fuel (splitBox boxes)
        · unfold splitBox
          intro hnil
          have := congrArg List.length hnil
          simp [List.length_append] at this
        · intro b hb
          unfold splitBox at hb
          simp only [List.mem_append, List.mem_cons, List.not_mem_nil, or_false] at hb
          rcases hb with (hb | hb | hb) | hb
          · exact h2 b (List.mem_of_mem_take hb)
          · subst hb
            have : ((sortedBox boxes).take ((sortedBox boxes).length / 2)).length =
                (sortedBox boxes).length / 2 := by
              rw [List.length_take]
              omega
            intro hnil
            rw [hnil] at this
            simp at this
            omega
          · subst hb
            have : ((sortedBox boxes).drop ((sortedBox boxes).length / 2)).length =
                (sortedBox boxes).length - (sortedBox boxes).length / 2 := List.length_drop _ _
            intro hnil
            rw [hnil] at this
            simp at this
            omega
          · exact h2 b (List.mem_of_mem_drop hb)
        · unfold splitBox
          rw [List.length_append, List.length_append, List.length_take, List.length_drop]
          simp only [List.length_cons, List.length_nil]
          omega
    · rw [if_neg hlt]
      exact ⟨h1, h2, h3⟩

/-- C5 (amended): on an image with at least one opaque pixel and a
host-clamped color count (≥ 2), every algorithm returns a palette of length
between 1 and the requested count; length 1 can occur (so 2 ≤ length
fails), entries need not be pairwise distinct, and the length can fall
below the request even when the image has at least as many unique opaque
colors. -/
theorem extractPalette_length_bounds (img : ImageData) (colorCount pick : ℕ)
    (alg : Algorithm) (hN : 2 ≤ colorCount) (hne : extractAllColors img ≠ []) :
    1 ≤ (extractPalette img colorCount alg pick).length ∧
      (extractPalette img colorCount alg pick).length ≤ colorCount := by
  cases alg with
  | frequency =>
    show 1 ≤ (frequencyBased (extractColorsWithFrequency img) colorCount).length ∧
      (frequencyBased (extractColorsWithFrequency img) colorCount).length ≤ colorCount
    unfold frequencyBased
    rw [List.length_map, List.length_take]
    have hcm : extractColorsWithFrequency img ≠ [] := by
      intro h
      have hkeys := extractColorsWithFrequency_keys img
      rw [h] at hkeys
      exact uniqueColors_ne_nil _ hne hkeys.symm
    have hpos : 0 < (List.insertionSort (fun a b : RGBA × ℕ => b.2 ≤ a.2)
        (extractColorsWithFrequency img)).length := by
      rw [(List.perm_insertionSort _ _).length_eq]
      exact List.length_pos.mpr hcm
    omega
  | mediancut =>
    show 1 ≤ (medianCut (extractAllColors img) colorCount).length ∧
      (medianCut (extractAllColors img) colorCount).length ≤ colorCount
    unfold medianCut
    rw [if_neg (fun h => hne (List.length_eq_zero.mp h))]
    by_cases hs : (extractAllColors img).length ≤ colorCount
    · rw [if_pos hs]
      exact ⟨List.length_pos.mpr (uniqueColors_ne_nil _ hne),
        le_trans (uniqueColors_length_le _) hs⟩
    · rw [if_neg hs]
      obtain ⟨hn, hall, hlen⟩ := medianCutLoop_inv colorCount colorCount [extractAllColors img]
        (by simp) (by simpa using hne)
        (by simp only [List.length_cons, List.length_nil]; omega)
      have hfilter : (medianCutLoop colorCount colorCount [extractAllColors img]).filter
          (fun b => !b.isEmpty) = medianCutLoop colorCount colorCount [extractAllColors img] := by
        apply List.filter_eq_self.mpr
        intro b hb
        simpa [List.isEmpty_iff] using hall b hb
      rw [hfilter, List.length_map]
      exact ⟨List.length_pos.mpr hn, hlen⟩
  | kmeans =>
    show 1 ≤ (kMeans (extractAllColors img) colorCount pick).length ∧
      (kMeans (extractAllColors img) colorCount pick).length ≤ colorCount
    unfold kMeans
    rw [if_neg (fun h => hne (List.length_eq_zero.mp h))]
    by_cases hs : (extractAllColors img).length ≤ colorCount
    · rw [if_pos hs]
      exact ⟨List.length_pos.mpr (uniqueColors_ne_nil _ hne),
        le_trans (uniqueColors_length_le _) hs⟩
    · rw [if_neg hs, kMeansIterate_length,
        seedLoop_length (extractAllColors img) colorCount colorCount _
          (by simp only [List.length_cons, List.length_nil]; omega)
          (by simp only [List.length_cons, List.length_nil]; omega)]
      exact ⟨by omega, le_rfl⟩

/-- Witness for C5's amended theorem on `img4` with median-cut. -/
theorem extractPalette_length_bounds_witness :
    2 ≤ 3 ∧ extractAllColors img4 ≠ [] ∧
      (1 ≤ (extractPalette img4 3 .mediancut 0).length ∧
        (extractPalette img4 3 .mediancut 0).length ≤ 3) :=
  ⟨by decide, by decide, extractPalette_length_bounds img4 3 0 .mediancut (by decide) (by decide)⟩

/-- A 3×1 image whose three pixels share the RGB value (10,10,10) but
carry three different nonzero alphas: three distinct opaque colors with
zero range in every RGB channel, so no box of the median-cut split loop is
ever splittable. -/
def imgMono : ImageData :=
  ⟨3, 1, [⟨10, 10, 10, 100⟩, ⟨10, 10, 10, 200⟩, ⟨10, 10, 10, 255⟩]⟩

/-- C5 counterexample: the median-cut palette for `img4` at colorCount 3 is
`[blue, blue, red]`, which is not a sequence of pairwise-distinct colors;
and on `imgMono`, whose 3 ≥ 2 distinct opaque colors differ only in alpha,
requesting 2 colors hits the `maxRange ≤ 0` early stop of the split loop
and returns the single box mean `(10,10,10,185)` — a palette of length
1 < 2 although the image does not have fewer unique opaque colors than
requested. -/
theorem medianCut_palette_duplicates :
    (extractPalette img4 3 .mediancut 0 =
        [⟨0, 0, 255, 255⟩, ⟨0, 0, 255, 255⟩, ⟨255, 0, 0, 255⟩] ∧
      ¬ List.Pairwise (fun a b : RGBA => a ≠ b) (extractPalette img4 3 .mediancut 0)) ∧
    (extractPalette imgMono 2 .mediancut 0 = [⟨10, 10, 10, 185⟩] ∧
      (extractPalette imgMono 2 .mediancut 0).length = 1 ∧
      (uniqueColors (extractAllColors imgMono)).length = 3) :=
  ⟨⟨by decide, by decide⟩, by decide, by decide, by decide⟩

/-! ## Floyd–Steinberg dithering (applyFloydSteinberg)

The dithering loop copies the image into a floating-point working array and
mutates it by error diffusion.  Working values are modelled as exact
rationals: every operation the loop performs (sums of bytes and of errors
scaled by sixteenths) is dyadic-rational arithmetic, which IEEE float64
represents exactly at these magnitudes. -/

/-- A working pixel of the dithering loop: rational RGB working values and
the alpha byte, which never receives error diffusion (only channels 0–2 are
ever incremented). -/
structure WorkPixel where
  wr : ℚ
  wg : ℚ
  wb : ℚ
  wa : ℕ
deriving DecidableEq

/-- Clamp-and-round of the working value:
`Math.max(0, Math.min(255, Math.round(v)))` (rounding happens first). -/
def clampByte (z : ℤ) : ℕ :=
  (max 0 (min 255 z)).toNat

/-- Add per-channel error to a working pixel in place
(`pixels[idx][0..2] += error * weight`). -/
def addErr (pixels : List WorkPixel) (idx : ℕ) (er eg eb : ℚ) : List WorkPixel :=
  pixels.set idx
    ⟨(pixels.getD idx ⟨0, 0, 0, 0⟩).wr + er, (pixels.getD idx ⟨0, 0, 0, 0⟩).wg + eg,
      (pixels.getD idx ⟨0, 0, 0, 0⟩).wb + eb, (pixels.getD idx ⟨0, 0, 0, 0⟩).wa⟩

/-- Right-neighbor diffusion (`+7/16`), skipped when `x+1` is outside the
row. -/
def diffuse1 (W x y : ℕ) (errR errG errB : ℚ) (pixels : List WorkPixel) : List WorkPixel :=
  if x + 1 < W then
    addErr pixels (y * W + x + 1) (errR * 7 / 16) (errG * 7 / 16) (errB * 7 / 16)
  else pixels

/-- Bottom-left-neighbor diffusion (`+3/16`), skipped when the next row or
the previous column is outside the buffer. -/
def diffuse2 (W H x y : ℕ) (errR errG errB : ℚ) (pixels : List WorkPixel) : List WorkPixel :=
  if y + 1 < H ∧ 1 ≤ x then
    addErr pixels ((y + 1) * W + x - 1) (errR * 3 / 16) (errG * 3 / 16) (errB * 3 / 16)
  else pixels

/-- Bottom-neighbor diffusion (`+5/16`), skipped when the next row is
outside the buffer. -/
def diffuse3 (W H x y : ℕ) (errR errG errB : ℚ) (pixels : List WorkPixel) : List WorkPixel :=
  if y + 1 < H then
    addErr pixels ((y + 1) * W + x) (errR * 5 / 16) (errG * 5 / 16) (errB * 5 / 16)
  else pixels

/-- Bottom-right-neighbor diffusion (`+1/16`), skipped when the next row or
column is outside the buffer. -/
def diffuse4 (W H x y : ℕ) (errR errG errB : ℚ) (pixels : List WorkPixel) : List WorkPixel :=
  if y + 1 < H ∧ x + 1 < W then
    addErr pixels ((y + 1) * W + x + 1) (errR * 1 / 16) (errG * 1 / 16) (errB * 1 / 16)
  else pixels

/-- Body of the `applyFloydSteinberg` pixel loop at `(x, y)`: transparent
pixels are zeroed in the result; otherwise the nearest palette color to the
clamped-and-rounded working value is written with the original alpha, and
the per-channel error `working − chosen` is diffused to the right (7/16),
bottom-left (3/16), bottom (5/16) and bottom-right (1/16) working pixels,
each skipped independently when outside the buffer. -/
def fsStep (W H : ℕ) (palette : List RGBA) (x y : ℕ)
    (st : List WorkPixel × List RGBA) : List WorkPixel × List RGBA :=
  let idx := y * W + x
  let old := st.1.getD idx ⟨0, 0, 0, 0⟩
  if old.wa = 0 then (st.1, st.2.set idx ⟨0, 0, 0, 0⟩)
  else
    let newPixel := findNearestColor
      ⟨clampByte (jsRound old.wr), clampByte (jsRound old.wg), clampByte (jsRound old.wb),
        old.wa⟩ palette
    let errR : ℚ := old.wr - newPixel.r
    let errG : ℚ := old.wg - newPixel.g
    let errB : ℚ := old.wb - newPixel.b
    (diffuse4 W H x y errR errG errB (diffuse3 W H x y errR errG errB
        (diffuse2 W H x y errR errG errB (diffuse1 W x y errR errG errB st.1))),
      st.2.set idx ⟨newPixel.r, newPixel.g, newPixel.b, old.wa⟩)

/-- applyFloydSteinberg from `paletteReducer.ts`: row-major traversal of
the working copy, producing a fresh zero-initialized result buffer. -/
def applyFloydSteinberg (imageData : ImageData) (palette : List RGBA) : ImageData :=
  ⟨imageData.width, imageData.height,
    ((List.range imageData.height).foldl (fun st y =>
      (List.range imageData.width).foldl
        (fun st' x => fsStep imageData.width imageData.height palette x y st') st)
      (imageData.data.map (fun c => (⟨(c.r : ℚ), (c.g : ℚ), (c.b : ℚ), c.a⟩ : WorkPixel)),
        List.replicate (imageData.width * imageData.height) (⟨0, 0, 0, 0⟩ : RGBA))).2⟩

/-- Variant of `fsStep` that follows the spec's words: the diffused error is
computed from the clamped-to-[0,255], rounded working value instead of the
raw working value.  Written only for comparison with the source's
behavior. -/
def fsStepClamped (W H : ℕ) (palette : List RGBA) (x y : ℕ)
    (st : List WorkPixel × List RGBA) : List WorkPixel × List RGBA :=
  let idx := y * W + x
  let old := st.1.getD idx ⟨0, 0, 0, 0⟩
  if old.wa = 0 then (st.1, st.2.set idx ⟨0, 0, 0, 0⟩)
  else
    let newPixel := findNearestColor
      ⟨clampByte (jsRound old.wr), clampByte (jsRound old.wg), clampByte (jsRound old.wb),
        old.wa⟩ palette
    let errR : ℚ := (clampByte (jsRound old.wr) : ℚ) - newPixel.r
    let errG : ℚ := (clampByte (jsRound old.wg) : ℚ) - newPixel.g
    let errB : ℚ := (clampByte (jsRound old.wb) : ℚ) - newPixel.b
    (diffuse4 W H x y errR errG errB (diffuse3 W H x y errR errG errB
        (diffuse2 W H x y errR errG errB (diffuse1 W x y errR errG errB st.1))),
      st.2.set idx ⟨newPixel.r, newPixel.g, newPixel.b, old.wa⟩)

/-- Spec-modelled dithering: `applyFloydSteinberg` with the spec's
clamped-error rule, for comparison. -/
def applyFloydSteinbergClampedError (imageData : ImageData) (palette : List RGBA) : ImageData :=
  ⟨imageData.width, imageData.height,
    ((List.range imageData.height).foldl (fun st y =>
      (List.range imageData.width).foldl
        (fun st' x => fsStepClamped imageData.width imageData.height palette x y st') st)
      (imageData.data.map (fun c => (⟨(c.r : ℚ), (c.g : ℚ), (c.b : ℚ), c.a⟩ : WorkPixel)),
        List.replicate (imageData.width * imageData.height) (⟨0, 0, 0, 0⟩ : RGBA))).2⟩

/-- A 3×1 image whose dithered output differs between the source's
unclamped-error rule and the spec's clamped-error rule. -/
def img3 : ImageData :=
  ⟨3, 1, [⟨255, 0, 0, 255⟩, ⟨180, 180, 180, 255⟩, ⟨111, 161, 161, 255⟩]⟩

/-- The black-and-white palette. -/
def pal2 : List RGBA :=
  [⟨0, 0, 0, 255⟩, ⟨255, 255, 255, 255⟩]

unseal Rat.add Rat.mul Rat.sub Rat.inv in
/-- C4 counterexample: the source diffuses `working − chosen` with the raw
(unclamped, unrounded) working value.  On `img3` with the black/white
palette, pixel 1's working red value is 291.5625, so the code's error
(36.5625 after clamping wrote 255) disagrees with the spec's clamped error
(0), and pixel 2 quantizes to white under the code but to black under the
spec's clamped-error rule. -/
theorem applyFloydSteinberg_error_not_clamped :
    applyFloydSteinberg img3 pal2 ≠ applyFloydSteinbergClampedError img3 pal2 ∧
    (applyFloydSteinberg img3 pal2).data.getD 2 ⟨0, 0, 0, 0⟩ = ⟨255, 255, 255, 255⟩ ∧
    (applyFloydSteinbergClampedError img3 pal2).data.getD 2 ⟨0, 0, 0, 0⟩ = ⟨0, 0, 0, 255⟩ := by
  refine ⟨by decide, by decide, by decide⟩

theorem addErr_length (pixels : List WorkPixel) (idx : ℕ) (er eg eb : ℚ) :
    (addErr pixels idx er eg eb).length = pixels.length := by
  unfold addErr
  exact List.length_set _ _ _

theorem addErr_getD_self (pixels : List WorkPixel) (idx : ℕ) (er eg eb : ℚ)
    (h : idx < pixels.length) :
    (addErr pixels idx er eg eb).getD idx ⟨0, 0, 0, 0⟩ =
      ⟨(pixels.getD idx ⟨0, 0, 0, 0⟩).wr + er, (pixels.getD idx ⟨0, 0, 0, 0⟩).wg + eg,
        (pixels.getD idx ⟨0, 0, 0, 0⟩).wb + eb, (pixels.getD idx ⟨0, 0, 0, 0⟩).wa⟩ := by
  unfold addErr
  rw [List.getD_eq_getElem?_getD, List.getElem?_set_self h]
  rfl

theorem addErr_getD_ne (pixels : List WorkPixel) (idx : ℕ) (er eg eb : ℚ) (j : ℕ)
    (h : j ≠ idx) :
    (addErr pixels idx er eg eb).getD j ⟨0, 0, 0, 0⟩ = pixels.getD j ⟨0, 0, 0, 0⟩ := by
  unfold addErr
  rw [List.getD_eq_getElem?_getD, List.getElem?_set_ne (fun he => h he.symm),
    ← List.getD_eq_getElem?_getD]

theorem rowIdx_lt {x y W H : ℕ} (hx : x < W) (hy : y < H) : y * W + x < W * H := by
  calc y * W + x < y * W + W := by omega
    _ = (y + 1) * W := by ring
    _ ≤ H * W := Nat.mul_le_mul_right W (by omega)
    _ = W * H := Nat.mul_comm _ _

theorem diffuse1_length {W x y : ℕ} {er eg eb : ℚ} {pixels : List WorkPixel} :
    (diffuse1 W x y er eg eb pixels).length = pixels.length := by
  unfold diffuse1
  split
  · exact addErr_length _ _ _ _ _
  · rfl

theorem diffuse2_length {W H x y : ℕ} {er eg eb : ℚ} {pixels : List WorkPixel} :
    (diffuse2 W H x y er eg eb pixels).length = pixels.length := by
  unfold diffuse2
  split
  · exact addErr_length _ _ _ _ _
  · rfl

theorem diffuse3_length {W H x y : ℕ} {er eg eb : ℚ} {pixels : List WorkPixel} :
    (diffuse3 W H x y er eg eb pixels).length = pixels.length := by
  unfold diffuse3
  split
  · exact addErr_length _ _ _ _ _
  · rfl

theorem diffuse4_length {W H x y : ℕ} {er eg eb : ℚ} {pixels : List WorkPixel} :
    (diffuse4 W H x y er eg eb pixels).length = pixels.length := by
  unfold diffuse4
  split
  · exact addErr_length _ _ _ _ _
  · rfl

theorem diffuse1_getD_ne {W x y : ℕ} {er eg eb : ℚ} {pixels : List WorkPixel} {j : ℕ}
    (h : x + 1 < W → j ≠ y * W + x + 1) :
    (diffuse1 W x y er eg eb pixels).getD j ⟨0, 0, 0, 0⟩ = pixels.getD j ⟨0, 0, 0, 0⟩ := by
  unfold diffuse1
  by_cases hg : x + 1 < W
  · rw [if_pos hg]
    exact addErr_getD_ne _ _ _ _ _ _ (h hg)
  · rw [if_neg hg]

theorem diffuse2_getD_ne {W H x y : ℕ} {er eg eb : ℚ} {pixels : List WorkPixel} {j : ℕ}
    (h : y + 1 < H ∧ 1 ≤ x → j ≠ (y + 1) * W + x - 1) :
    (diffuse2 W H x y er eg eb pixels).getD j ⟨0, 0, 0, 0⟩ = pixels.getD j ⟨0, 0, 0, 0⟩ := by
  unfold diffuse2
  by_cases hg : y + 1 < H ∧ 1 ≤ x
  · rw [if_pos hg]
    exact addErr_getD_ne _ _ _ _ _ _ (h hg)
  · rw [if_neg hg]

theorem diffuse3_getD_ne {W H x y : ℕ} {er eg eb : ℚ} {pixels : List WorkPixel} {j : ℕ}
    (h : y + 1 < H → j ≠ (y + 1) * W + x) :
    (diffuse3 W H x y er eg eb pixels).getD j ⟨0, 0, 0, 0⟩ = pixels.getD j ⟨0, 0, 0, 0⟩ := by
  unfold diffuse3
  by_cases hg : y + 1 < H
  · rw [if_pos hg]
    exact addErr_getD_ne _ _ _ _ _ _ (h hg)
  · rw [if_neg hg]

theorem diffuse4_getD_ne {W H x y : ℕ} {er eg eb : ℚ} {pixels : List WorkPixel} {j : ℕ}
    (h : y + 1 < H ∧ x + 1 < W → j ≠ (y + 1) * W + x + 1) :
    (diffuse4 W H x y er eg eb pixels).getD j ⟨0, 0, 0, 0⟩ = pixels.getD j ⟨0, 0, 0, 0⟩ := by
  unfold diffuse4
  by_cases hg : y + 1 < H ∧ x + 1 < W
  · rw [if_pos hg]
    exact addErr_getD_ne _ _ _ _ _ _ (h hg)
  · rw [if_neg hg]

theorem diffuse1_getD_self {W x y : ℕ} {er eg eb : ℚ} {pixels : List WorkPixel}
    (hg : x + 1 < W) (hidx : y * W + x + 1 < pixels.length) :
    (diffuse1 W x y er eg eb pixels).getD (y * W + x + 1) ⟨0, 0, 0, 0⟩ =
      ⟨(pixels.getD (y * W + x + 1) ⟨0, 0, 0, 0⟩).wr + er * 7 / 16,
        (pixels.getD (y * W + x + 1) ⟨0, 0, 0, 0⟩).wg + eg * 7 / 16,
        (pixels.getD (y * W + x + 1) ⟨0, 0, 0, 0⟩).wb + eb * 7 / 16,
        (pixels.getD (y * W + x + 1) ⟨0, 0, 0, 0⟩).wa⟩ := by
  unfold diffuse1
  rw [if_pos hg]
  exact addErr_getD_self _ _ _ _ _ hidx

theorem diffuse2_getD_self {W H x y : ℕ} {er eg eb : ℚ} {pixels : List WorkPixel}
    (hg : y + 1 < H ∧ 1 ≤ x) (hidx : (y + 1) * W + x - 1 < pixels.length) :
    (diffuse2 W H x y er eg eb pixels).getD ((y + 1) * W + x - 1) ⟨0, 0, 0, 0⟩ =
      ⟨(pixels.getD ((y + 1) * W + x - 1) ⟨0, 0, 0, 0⟩).wr + er * 3 / 16,
        (pixels.getD ((y + 1) * W + x - 1) ⟨0, 0, 0, 0⟩).wg + eg * 3 / 16,
        (pixels.getD ((y + 1) * W + x - 1) ⟨0, 0, 0, 0⟩).wb + eb * 3 / 16,
        (pixels.getD ((y + 1) * W + x - 1) ⟨0, 0, 0, 0⟩).wa⟩ := by
  unfold diffuse2
  rw [if_pos hg]
  exact addErr_getD_self _ _ _ _ _ hidx

theorem diffuse3_getD_self {W H x y : ℕ} {er eg eb : ℚ} {pixels : List WorkPixel}
    (hg : y + 1 < H) (hidx : (y + 1) * W + x < pixels.length) :
    (diffuse3 W H x y er eg eb pixels).getD ((y + 1) * W + x) ⟨0, 0, 0, 0⟩ =
      ⟨(pixels.getD ((y + 1) * W + x) ⟨0, 0, 0, 0⟩).wr + er * 5 / 16,
        (pixels.getD ((y + 1) * W + x) ⟨0, 0, 0, 0⟩).wg + eg * 5 / 16,
        (pixels.getD ((y + 1) * W + x) ⟨0, 0, 0, 0⟩).wb + eb * 5 / 16,
        (pixels.getD ((y + 1) * W + x) ⟨0, 0, 0, 0⟩).wa⟩ := by
  unfold diffuse3
  rw [if_pos hg]
  exact addErr_getD_self _ _ _ _ _ hidx

theorem diffuse4_getD_self {W H x y : ℕ} {er eg eb : ℚ} {pixels : List WorkPixel}
    (hg : y + 1 < H ∧ x + 1 < W) (hidx : (y + 1) * W + x + 1 < pixels.length) :
    (diffuse4 W H x y er eg eb pixels).getD ((y + 1) * W + x + 1) ⟨0, 0, 0, 0⟩ =
      ⟨(pixels.getD ((y + 1) * W + x + 1) ⟨0, 0, 0, 0⟩).wr + er * 1 / 16,
        (pixels.getD ((y + 1) * W + x + 1) ⟨0, 0, 0, 0⟩).wg + eg * 1 / 16,
        (pixels.getD ((y + 1) * W + x + 1) ⟨0, 0, 0, 0⟩).wb + eb * 1 / 16,
        (pixels.getD ((y + 1) * W + x + 1) ⟨0, 0, 0, 0⟩).wa⟩ := by
  unfold diffuse4
  rw [if_pos hg]
  exact addErr_getD_self _ _ _ _ _ hidx

/-- C4 (amended): for an in-bounds non-transparent pixel, the dithering
step writes the nearest palette color to the clamped-rounded working value
(with the original alpha) into the result, and diffuses the per-channel
error `raw working value − chosen` — not the clamped-rounded value the
claim states — into the working values of the right (7/16), bottom-left
(3/16), bottom (5/16) and bottom-right (1/16) neighbors, each skipped
independently when outside the buffer; all other working pixels are
untouched. -/
theorem fsStep_error_diffusion (W H : ℕ) (palette : List RGBA) (x y : ℕ)
    (st : List WorkPixel × List RGBA) (old : WorkPixel) (chosen : RGBA)
    (errR errG errB : ℚ)
    (hx : x < W) (hy : y < H) (hlen : st.1.length = W * H)
    (hold : old = st.1.getD (y * W + x) ⟨0, 0, 0, 0⟩)
    (ha : old.wa ≠ 0)
    (hchosen : chosen = findNearestColor
      ⟨clampByte (jsRound old.wr), clampByte (jsRound old.wg), clampByte (jsRound old.wb),
        old.wa⟩ palette)
    (her : errR = old.wr - (chosen.r : ℚ)) (heg : errG = old.wg - (chosen.g : ℚ))
    (heb : errB = old.wb - (chosen.b : ℚ)) :
    (fsStep W H palette x y st).2 =
      st.2.set (y * W + x) ⟨chosen.r, chosen.g, chosen.b, old.wa⟩ ∧
    (x + 1 < W →
      (fsStep W H palette x y st).1.getD (y * W + x + 1) ⟨0, 0, 0, 0⟩ =
        ⟨(st.1.getD (y * W + x + 1) ⟨0, 0, 0, 0⟩).wr + errR * 7 / 16,
         (st.1.getD (y * W + x + 1) ⟨0, 0, 0, 0⟩).wg + errG * 7 / 16,
         (st.1.getD (y * W + x + 1) ⟨0, 0, 0, 0⟩).wb + errB * 7 / 16,
         (st.1.getD (y * W + x + 1) ⟨0, 0, 0, 0⟩).wa⟩) ∧
    (y + 1 < H ∧ 1 ≤ x →
      (fsStep W H palette x y st).1.getD ((y + 1) * W + x - 1) ⟨0, 0, 0, 0⟩ =
        ⟨(st.1.getD ((y + 1) * W + x - 1) ⟨0, 0, 0, 0⟩).wr + errR * 3 / 16,
         (st.1.getD ((y + 1) * W + x - 1) ⟨0, 0, 0, 0⟩).wg + errG * 3 / 16,
         (st.1.getD ((y + 1) * W + x - 1) ⟨0, 0, 0, 0⟩).wb + errB * 3 / 16,
         (st.1.getD ((y + 1) * W + x - 1) ⟨0, 0, 0, 0⟩).wa⟩) ∧
    (y + 1 < H →
      (fsStep W H palette x y st).1.getD ((y + 1) * W + x) ⟨0, 0, 0, 0⟩ =
        ⟨(st.1.getD ((y + 1) * W + x) ⟨0, 0, 0, 0⟩).wr + errR * 5 / 16,
         (st.1.getD ((y + 1) * W + x) ⟨0, 0, 0, 0⟩).wg + errG * 5 / 16,
         (st.1.getD ((y + 1) * W + x) ⟨0, 0, 0, 0⟩).wb + errB * 5 / 16,
         (st.1.getD ((y + 1) * W + x) ⟨0, 0, 0, 0⟩).wa⟩) ∧
    (y + 1 < H ∧ x + 1 < W →
      (fsStep W H palette x y st).1.getD ((y + 1) * W + x + 1) ⟨0, 0, 0, 0⟩ =
        ⟨(st.1.getD ((y + 1) * W + x + 1) ⟨0, 0, 0, 0⟩).wr + errR * 1 / 16,
         (st.1.getD ((y + 1) * W + x + 1) ⟨0, 0, 0, 0⟩).wg + errG * 1 / 16,
         (st.1.getD ((y + 1) * W + x + 1) ⟨0, 0, 0, 0⟩).wb + errB * 1 / 16,
         (st.1.getD ((y + 1) * W + x + 1) ⟨0, 0, 0, 0⟩).wa⟩) ∧
    (∀ i : ℕ,
      (x + 1 < W → i ≠ y * W + x + 1) →
      (y + 1 < H ∧ 1 ≤ x → i ≠ (y + 1) * W + x - 1) →
      (y + 1 < H → i ≠ (y + 1) * W + x) →
      (y + 1 < H ∧ x + 1 < W → i ≠ (y + 1) * W + x + 1) →
      (fsStep W H palette x y st).1.getD i ⟨0, 0, 0, 0⟩ = st.1.getD i ⟨0, 0, 0, 0⟩) := by
  have hsm : (y + 1) * W = y * W + W := Nat.succ_mul y W
  subst hold hchosen her heg heb
  simp only [fsStep, if_neg ha]
  refine ⟨trivial, ?_, ?_, ?_, ?_, ?_⟩
  · intro hg1
    have hb : y * W + (x + 1) < W * H := rowIdx_lt hg1 hy
    rw [diffuse4_getD_ne (by rintro ⟨_, _⟩; omega),
      diffuse3_getD_ne (by intro _; omega),
      diffuse2_getD_ne (by rintro ⟨_, hx1⟩; omega),
      diffuse1_getD_self hg1 (by rw [hlen]; omega)]
  · rintro ⟨hH, hx1⟩
    have hb : (y + 1) * W + (x - 1) < W * H := rowIdx_lt (by omega) hH
    rw [diffuse4_getD_ne (by rintro ⟨_, _⟩; omega),
      diffuse3_getD_ne (by intro _; omega),
      diffuse2_getD_self ⟨hH, hx1⟩
        (by rw [diffuse1_length, hlen]; omega),
      diffuse1_getD_ne (by intro hg; omega)]
  · intro hH
    have hb : (y + 1) * W + x < W * H := rowIdx_lt hx hH
    rw [diffuse4_getD_ne (by rintro ⟨_, _⟩; omega),
      diffuse3_getD_self hH
        (by rw [diffuse2_length, diffuse1_length, hlen]; omega),
      diffuse2_getD_ne (by rintro ⟨_, hx1⟩; omega),
      diffuse1_getD_ne (by intro hg; omega)]
  · rintro ⟨hH, hg1⟩
    have hb : (y + 1) * W + (x + 1) < W * H := rowIdx_lt hg1 hH
    rw [diffuse4_getD_self ⟨hH, hg1⟩
        (by rw [diffuse3_length, diffuse2_length, diffuse1_length, hlen]; omega),
      diffuse3_getD_ne (by intro _; omega),
      diffuse2_getD_ne (by rintro ⟨_, hx1⟩; omega),
      diffuse1_getD_ne (by intro hg; omega)]
  · intro i h1 h2 h3 h4
    rw [diffuse4_getD_ne h4, diffuse3_getD_ne h3, diffuse2_getD_ne h2, diffuse1_getD_ne h1]

/-- Witness for C4's amended theorem: on a 1×1 buffer no neighbor exists,
so the working pixel is untouched by the step. -/
theorem fsStep_error_diffusion_witness :
    (fsStep 1 1 [⟨0, 0, 0, 255⟩] 0 0
        ([⟨(10 : ℚ), 20, 30, 255⟩], [⟨0, 0, 0, 0⟩])).1.getD 0 ⟨0, 0, 0, 0⟩ =
      ⟨(10 : ℚ), 20, 30, 255⟩ :=
  ((fsStep_error_diffusion 1 1 [⟨0, 0, 0, 255⟩] 0 0
      ([⟨(10 : ℚ), 20, 30, 255⟩], [⟨0, 0, 0, 0⟩]) ⟨(10 : ℚ), 20, 30, 255⟩
      (findNearestColor ⟨clampByte (jsRound (10 : ℚ)), clampByte (jsRound (20 : ℚ)),
        clampByte (jsRound (30 : ℚ)), 255⟩ [⟨0, 0, 0, 255⟩])
      ((10 : ℚ) - ((findNearestColor ⟨clampByte (jsRound (10 : ℚ)), clampByte (jsRound (20 : ℚ)),
        clampByte (jsRound (30 : ℚ)), 255⟩ [⟨0, 0, 0, 255⟩]).r : ℚ))
      ((20 : ℚ) - ((findNearestColor ⟨clampByte (jsRound (10 : ℚ)), clampByte (jsRound (20 : ℚ)),
        clampByte (jsRound (30 : ℚ)), 255⟩ [⟨0, 0, 0, 255⟩]).g : ℚ))
      ((30 : ℚ) - ((findNearestColor ⟨clampByte (jsRound (10 : ℚ)), clampByte (jsRound (20 : ℚ)),
        clampByte (jsRound (30 : ℚ)), 255⟩ [⟨0, 0, 0, 255⟩]).b : ℚ))
      (by decide) (by decide) (by decide) rfl (by decide) rfl rfl rfl rfl).2.2.2.2.2
    0 (by intro h; omega) (by intro h; omega) (by intro h; omega) (by intro h; omega))

/-! ### Flood fill (extension.ts, Canvas component) -/

/-- hexToRgba from the Canvas component.  The JS regex match of the hex
string is embedded as its optional result (the three parsed channel
bytes): a match yields those channels, a failed match yields black, and in
both branches the alpha channel is the `alpha` argument (the declared
default for an omitted argument is 255). -/
def hexToRgba (hexMatch : Option (ℕ × ℕ × ℕ)) (alpha : ℕ) : RGBA :=
  match hexMatch with
  | some (r, g, b) => ⟨r, g, b, alpha⟩
  | none => ⟨0, 0, 0, alpha⟩

theorem hexToRgba_a (hexMatch : Option (ℕ × ℕ × ℕ)) (alpha : ℕ) :
    (hexToRgba hexMatch alpha).a = alpha := by
  cases hexMatch with
  | none => rfl
  | some p =>
    obtain ⟨r, g, b⟩ := p
    rfl

/-- The finite set of in-bounds integer coordinates of a W by H buffer,
used as the flood fill termination measure. -/
def gridF (W H : ℕ) : Finset (ℤ × ℤ) :=
  (Finset.range W ×ˢ Finset.range H).image (fun p => ((p.1 : ℤ), (p.2 : ℤ)))

theorem mem_gridF {W H : ℕ} {p : ℤ × ℤ} :
    p ∈ gridF W H ↔ isPixelInBounds W H p.1 p.2 := by
  unfold gridF isPixelInBounds
  simp only [Finset.mem_image, Finset.mem_product, Finset.mem_range]
  constructor
  · rintro ⟨⟨a, b⟩, ⟨ha, hb⟩, rfl⟩
    refine ⟨?_, ?_, ?_, ?_⟩ <;> simp <;> omega
  · rintro ⟨h1, h2, h3, h4⟩
    obtain ⟨px, py⟩ := p
    refine ⟨(px.toNat, py.toNat), ⟨by omega, by omega⟩, ?_⟩
    simp only [Prod.mk.injEq]
    omega

theorem card_gridF (W H : ℕ) : (gridF W H).card = W * H := by
  unfold gridF
  have hinj : Function.Injective (fun p : ℕ × ℕ => ((p.1 : ℤ), (p.2 : ℤ))) := by
    rintro ⟨a, b⟩ ⟨c, d⟩ hab
    simp only [Prod.mk.injEq, Int.natCast_inj] at hab
    simp [Prod.mk.injEq, hab.1, hab.2]
  rw [Finset.card_image_of_injective _ hinj, Finset.card_product,
    Finset.card_range, Finset.card_range]

/-- The four axis neighbors pushed by the flood fill loop, in push order
[x+1,y], [x-1,y], [x,y+1], [x,y-1]. -/
def nbrs (p : ℤ × ℤ) : List (ℤ × ℤ) :=
  [(p.1 + 1, p.2), (p.1 - 1, p.2), (p.1, p.2 + 1), (p.1, p.2 - 1)]

/-- Loop of floodFill: pop the top of the stack (the JS array pops from
the end; the end of the array is the head of this list), skip it when
already visited, out of bounds, or not equal to the target color in all
four channels; otherwise mark it visited, overwrite it with the fill
color, and push the four axis neighbors (pushing [x+1,y], [x-1,y],
[x,y+1], [x,y-1] in order makes [x,y-1] the next pop).  One unit of fuel
is spent per iteration of the JS while loop; the fuel passed by floodFill
is proved sufficient below. -/
def floodFillGo (W H : ℕ) (target fill : RGBA) :
    ℕ → List (ℤ × ℤ) → Finset (ℤ × ℤ) → List RGBA → Option (List RGBA)
  | 0, _, _, _ => none
  | _ + 1, [], _, data => some data
  | fuel + 1, (x, y) :: rest, visited, data =>
    if (x, y) ∈ visited then floodFillGo W H target fill fuel rest visited data
    else if x < 0 ∨ (W : ℤ) ≤ x ∨ y < 0 ∨ (H : ℤ) ≤ y then
      floodFillGo W H target fill fuel rest visited data
    else if data.getD (canvasIdx W x y) ⟨0, 0, 0, 0⟩ ≠ target then
      floodFillGo W H target fill fuel rest visited data
    else
      floodFillGo W H target fill fuel
        ((x, y - 1) :: (x, y + 1) :: (x - 1, y) :: (x + 1, y) :: rest)
        (insert (x, y) visited) (data.set (canvasIdx W x y) fill)

/-- floodFill from the Canvas component: do nothing when the seed is out
of bounds, or when the seed pixel (the target color) already equals the
fill color in all four channels; otherwise run the stack loop seeded with
the start pixel, an empty visited set and the raw pixel buffer.  The JS
while loop is fuel-compiled; 5 * W * H + 2 units are proved sufficient. -/
def floodFill (img : ImageData) (startX startY : ℤ) (fill : RGBA) : Option ImageData :=
  if isPixelInBounds img.width img.height startX startY then
    if img.data.getD (canvasIdx img.width startX startY) ⟨0, 0, 0, 0⟩ = fill then some img
    else
      (floodFillGo img.width img.height
          (img.data.getD (canvasIdx img.width startX startY) ⟨0, 0, 0, 0⟩) fill
          (5 * (img.width * img.height) + 2) [(startX, startY)] ∅ img.data).map
        (fun d => ⟨img.width, img.height, d⟩)
  else some img

/-- The flood fill tool as invoked by the UI: the fill color comes from
hexToRgba with the alpha argument omitted, hence alpha 255. -/
def floodFillHex (img : ImageData) (startX startY : ℤ)
    (hexMatch : Option (ℕ × ℕ × ℕ)) : Option ImageData :=
  floodFill img startX startY (hexToRgba hexMatch 255)

theorem getElem?_set_or {α : Type} (l : List α) (n i : ℕ) (a : α) :
    (l.set n a)[i]? = l[i]? ∨ (l.set n a)[i]? = some a := by
  by_cases hni : n = i
  · subst hni
    by_cases hlt : n < l.length
    · exact Or.inr (List.getElem?_set_self hlt)
    · exact Or.inl (by rw [List.set_eq_of_length_le (Nat.le_of_not_lt hlt)])
  · exact Or.inl (List.getElem?_set_ne hni)

/-- Termination and frame lemma for the flood fill loop: with fuel
exceeding the measure 5 * (unvisited in-bounds pixels) + stack length, the
loop returns a buffer of the same length in which every pixel is either
untouched or the fill color. -/
theorem floodFillGo_total (W H : ℕ) (target fill : RGBA) :
    ∀ (fuel : ℕ) (stack : List (ℤ × ℤ)) (visited : Finset (ℤ × ℤ)) (data : List RGBA),
      visited ⊆ gridF W H →
      5 * ((gridF W H \ visited).card) + stack.length < fuel →
      ∃ d, floodFillGo W H target fill fuel stack visited data = some d ∧
        d.length = data.length ∧
        ∀ i : ℕ, d[i]? = data[i]? ∨ d[i]? = some fill := by
  intro fuel
  induction fuel with
  | zero =>
    intro stack visited data _ hm
    omega
  | succ fuel ih =>
    intro stack visited data hsub hm
    match stack with
    | [] => exact ⟨data, rfl, rfl, fun i => Or.inl rfl⟩
    | (x, y) :: rest =>
      simp only [List.length_cons] at hm
      simp only [floodFillGo]
      by_cases hv : (x, y) ∈ visited
      · rw [if_pos hv]
        exact ih rest visited data hsub (by omega)
      · rw [if_neg hv]
        by_cases hob : x < 0 ∨ (W : ℤ) ≤ x ∨ y < 0 ∨ (H : ℤ) ≤ y
        · rw [if_pos hob]
          exact ih rest visited data hsub (by omega)
        · rw [if_neg hob]
          by_cases hmt : data.getD (canvasIdx W x y) ⟨0, 0, 0, 0⟩ ≠ target
          · rw [if_pos hmt]
            exact ih rest visited data hsub (by omega)
          · rw [if_neg hmt]
            push_neg at hob
            have hxy : (x, y) ∈ gridF W H :=
              mem_gridF.mpr ⟨hob.1, hob.2.1, hob.2.2.1, hob.2.2.2⟩
            have hmem : (x, y) ∈ gridF W H \ visited := Finset.mem_sdiff.mpr ⟨hxy, hv⟩
            have hcard : (gridF W H \ insert (x, y) visited).card
                = (gridF W H \ visited).card - 1 := by
              rw [Finset.sdiff_insert, Finset.card_erase_of_mem hmem]
            have hpos : 0 < (gridF W H \ visited).card :=
              Finset.card_pos.mpr ⟨_, hmem⟩
            obtain ⟨d, hgo, hlen, hpix⟩ :=
              ih ((x, y - 1) :: (x, y + 1) :: (x - 1, y) :: (x + 1, y) :: rest)
                (insert (x, y) visited) (data.set (canvasIdx W x y) fill)
                (Finset.insert_subset hxy hsub)
                (by
                  rw [hcard]
                  simp only [List.length_cons]
                  omega)
            refine ⟨d, hgo, by rw [hlen, List.length_set], fun i => ?_⟩
            rcases hpix i with h | h
            · rcases getElem?_set_or data (canvasIdx W x y) i fill with h2 | h2
              · exact Or.inl (h.trans h2)
              · exact Or.inr (h.trans h2)
            · exact Or.inr h


/-- Invariant lemma for flood fill on a uniform buffer: if the buffer
holds the fill color exactly on the visited set and the target color on
the rest of the grid, and every in-bounds neighbor of a visited pixel is
visited or on the stack, then the loop ends with a visited superset V that
is closed under in-bounds neighbors, absorbs every in-bounds stack entry,
and the final buffer holds fill exactly on V. -/
theorem floodFillGo_uniform (W H : ℕ) (target fill : RGBA) :
    ∀ (fuel : ℕ) (stack : List (ℤ × ℤ)) (visited : Finset (ℤ × ℤ)) (data : List RGBA),
      visited ⊆ gridF W H →
      (∀ p ∈ gridF W H, data[canvasIdx W p.1 p.2]? =
        some (if p ∈ visited then fill else target)) →
      (∀ v ∈ visited, ∀ n ∈ nbrs v, n ∈ gridF W H → n ∈ visited ∨ n ∈ stack) →
      5 * ((gridF W H \ visited).card) + stack.length < fuel →
      ∃ V d, floodFillGo W H target fill fuel stack visited data = some d ∧
        visited ⊆ V ∧ V ⊆ gridF W H ∧
        (∀ p ∈ stack, p ∈ gridF W H → p ∈ V) ∧
        (∀ v ∈ V, ∀ n ∈ nbrs v, n ∈ gridF W H → n ∈ V) ∧
        (∀ p ∈ gridF W H, d[canvasIdx W p.1 p.2]? =
          some (if p ∈ V then fill else target)) := by
  intro fuel
  induction fuel with
  | zero =>
    intro stack visited data _ _ _ hm
    omega
  | succ fuel ih =>
    intro stack visited data hsub hdata hinv hm
    match stack with
    | [] =>
      refine ⟨visited, data, rfl, Finset.Subset.refl _, hsub, ?_, ?_, hdata⟩
      · intro p hp
        exact absurd hp (List.not_mem_nil p)
      · intro v hv n hn hg
        rcases hinv v hv n hn hg with h | h
        · exact h
        · exact absurd h (List.not_mem_nil n)
    | (x, y) :: rest =>
      simp only [List.length_cons] at hm
      simp only [floodFillGo]
      by_cases hv : (x, y) ∈ visited
      · rw [if_pos hv]
        obtain ⟨V, d, hgo, hVsub, hVg, hstV, hcl, hdat⟩ :=
          ih rest visited data hsub hdata
            (by
              intro v hv' n hn hg
              rcases hinv v hv' n hn hg with h | h
              · exact Or.inl h
              · rcases List.mem_cons.mp h with h2 | h2
                · exact Or.inl (h2 ▸ hv)
                · exact Or.inr h2)
            (by omega)
        refine ⟨V, d, hgo, hVsub, hVg, ?_, hcl, hdat⟩
        intro p hp hg
        rcases List.mem_cons.mp hp with h2 | h2
        · exact hVsub (h2 ▸ hv)
        · exact hstV p h2 hg
      · rw [if_neg hv]
        by_cases hob : x < 0 ∨ (W : ℤ) ≤ x ∨ y < 0 ∨ (H : ℤ) ≤ y
        · rw [if_pos hob]
          have hng : (x, y) ∉ gridF W H := by
            intro h
            obtain ⟨h1, h2, h3, h4⟩ := mem_gridF.mp h
            simp only at h1 h2 h3 h4
            rcases hob with h | h | h | h <;> omega
          obtain ⟨V, d, hgo, hVsub, hVg, hstV, hcl, hdat⟩ :=
            ih rest visited data hsub hdata
              (by
                intro v hv' n hn hg
                rcases hinv v hv' n hn hg with h | h
                · exact Or.inl h
                · rcases List.mem_cons.mp h with h2 | h2
                  · exact absurd (h2 ▸ hg) hng
                  · exact Or.inr h2)
              (by omega)
          refine ⟨V, d, hgo, hVsub, hVg, ?_, hcl, hdat⟩
          intro p hp hg
          rcases List.mem_cons.mp hp with h2 | h2
          · exact absurd (h2 ▸ hg) hng
          · exact hstV p h2 hg
        · rw [if_neg hob]
          push_neg at hob
          have hxy : (x, y) ∈ gridF W H :=
            mem_gridF.mpr ⟨hob.1, hob.2.1, hob.2.2.1, hob.2.2.2⟩
          have hread : data.getD (canvasIdx W x y) ⟨0, 0, 0, 0⟩ = target := by
            rw [List.getD_eq_getElem?_getD, hdata (x, y) hxy, if_neg hv]
            rfl
          rw [if_neg (by
            rw [hread]
            exact fun h => h rfl)]
          have hmem : (x, y) ∈ gridF W H \ visited := Finset.mem_sdiff.mpr ⟨hxy, hv⟩
          have hcard : (gridF W H \ insert (x, y) visited).card
              = (gridF W H \ visited).card - 1 := by
            rw [Finset.sdiff_insert, Finset.card_erase_of_mem hmem]
          have hpos : 0 < (gridF W H \ visited).card :=
            Finset.card_pos.mpr ⟨_, hmem⟩
          have hidxlt : canvasIdx W x y < data.length := by
            have h1 := hdata (x, y) hxy
            rw [List.getElem?_eq_some_iff] at h1
            exact h1.1
          obtain ⟨V, d, hgo, hVsub, hVg, hstV, hcl, hdat⟩ :=
            ih ((x, y - 1) :: (x, y + 1) :: (x - 1, y) :: (x + 1, y) :: rest)
              (insert (x, y) visited) (data.set (canvasIdx W x y) fill)
              (Finset.insert_subset hxy hsub)
              (by
                intro p hp
                by_cases hpxy : p = (x, y)
                · subst hpxy
                  rw [List.getElem?_set_self hidxlt, if_pos (Finset.mem_insert_self _ _)]
                · have hneidx : canvasIdx W x y ≠ canvasIdx W p.1 p.2 := by
                    intro he
                    obtain ⟨h1, h2⟩ :=
                      canvasIdx_inj (mem_gridF.mp hxy) (mem_gridF.mp hp) he
                    exact hpxy (Prod.ext h1.symm h2.symm)
                  rw [List.getElem?_set_ne hneidx, hdata p hp]
                  have hiff : p ∈ insert (x, y) visited ↔ p ∈ visited := by
                    rw [Finset.mem_insert]
                    exact or_iff_right hpxy
                  by_cases hpv : p ∈ visited
                  · rw [if_pos hpv, if_pos (hiff.mpr hpv)]
                  · rw [if_neg hpv, if_neg (fun h => hpv (hiff.mp h))])
              (by
                intro v hv' n hn hg
                rcases Finset.mem_insert.mp hv' with hveq | hvold
                · subst hveq
                  right
                  simp only [nbrs, List.mem_cons, List.not_mem_nil, or_false] at hn
                  rcases hn with rfl | rfl | rfl | rfl <;> simp
                · rcases hinv v hvold n hn hg with h | h
                  · exact Or.inl (Finset.mem_insert_of_mem h)
                  · rcases List.mem_cons.mp h with h2 | h2
                    · exact Or.inl (h2 ▸ Finset.mem_insert_self _ _)
                    · exact Or.inr (by simp [h2]))
              (by
                rw [hcard]
                simp only [List.length_cons]
                omega)
          refine ⟨V, d, hgo, (Finset.subset_insert _ _).trans hVsub, hVg, ?_, hcl, hdat⟩
          intro p hp hg
          rcases List.mem_cons.mp hp with h2 | h2
          · exact hVsub (h2 ▸ Finset.mem_insert_self _ _)
          · exact hstV p (by simp [h2]) hg


/-- A set of in-bounds coordinates containing an in-bounds seed and closed
under in-bounds axis neighbors contains the whole grid: walk along the
seed column and then along each row. -/
theorem gridF_reach (W H : ℕ) (V : Finset (ℤ × ℤ)) (sx sy : ℤ)
    (hseed : isPixelInBounds W H sx sy) (hs : (sx, sy) ∈ V)
    (hcl : ∀ v ∈ V, ∀ n ∈ nbrs v, n ∈ gridF W H → n ∈ V) :
    ∀ p ∈ gridF W H, p ∈ V := by
  obtain ⟨hsx0, hsxW, hsy0, hsyH⟩ := hseed
  have up : ∀ y : ℤ, sy ≤ y → (y < (H : ℤ) → (sx, y) ∈ V) := by
    refine Int.le_induction (fun _ => hs) ?_
    intro y hy ihy hlt
    exact hcl (sx, y) (ihy (by omega)) (sx, y + 1) (by simp [nbrs])
      (mem_gridF.mpr ⟨hsx0, hsxW, by omega, hlt⟩)
  have down : ∀ y : ℤ, y ≤ sy → (0 ≤ y → (sx, y) ∈ V) := by
    refine Int.le_induction_down (fun _ => hs) ?_
    intro y hy ihy h0
    exact hcl (sx, y) (ihy (by omega)) (sx, y - 1) (by simp [nbrs])
      (mem_gridF.mpr ⟨hsx0, hsxW, h0, by omega⟩)
  intro p hp
  obtain ⟨px, py⟩ := p
  obtain ⟨hpx0, hpxW, hpy0, hpyH⟩ := mem_gridF.mp hp
  simp only at hpx0 hpxW hpy0 hpyH
  have hcol : (sx, py) ∈ V := by
    rcases le_or_lt sy py with h | h
    · exact up py h hpyH
    · exact down py (le_of_lt h) hpy0
  have hrow : ∀ x : ℤ, sx ≤ x → (x < (W : ℤ) → (x, py) ∈ V) := by
    refine Int.le_induction (fun _ => hcol) ?_
    intro x hx ihx hlt
    exact hcl (x, py) (ihx (by omega)) (x + 1, py) (by simp [nbrs])
      (mem_gridF.mpr ⟨by omega, hlt, hpy0, hpyH⟩)
  have hrow' : ∀ x : ℤ, x ≤ sx → (0 ≤ x → (x, py) ∈ V) := by
    refine Int.le_induction_down (fun _ => hcol) ?_
    intro x hx ihx h0
    exact hcl (x, py) (ihx (by omega)) (x - 1, py) (by simp [nbrs])
      (mem_gridF.mpr ⟨h0, by omega, hpy0, hpyH⟩)
  rcases le_or_lt sx px with h | h
  · exact hrow px h hpxW
  · exact hrow' px (le_of_lt h) hpx0

/-- C7: for every W by H buffer whose pixels all have the same color and
every fill color different from that color, flood fill from any in-bounds
seed terminates and recolors all W * H pixels with the fill color. -/
theorem floodFill_uniform_full_coverage (W H : ℕ) (target fill : RGBA) (startX startY : ℤ)
    (hseed : isPixelInBounds W H startX startY) (hne : target ≠ fill) :
    floodFill ⟨W, H, List.replicate (W * H) target⟩ startX startY fill =
      some ⟨W, H, List.replicate (W * H) fill⟩ := by
  have hW : 0 < W := by
    obtain ⟨h1, h2, _, _⟩ := hseed
    omega
  have hseedG : ((startX, startY) : ℤ × ℤ) ∈ gridF W H := mem_gridF.mpr hseed
  have hidx : canvasIdx W startX startY < W * H := canvasIdx_lt hseed
  have htarget : (List.replicate (W * H) target).getD (canvasIdx W startX startY)
      ⟨0, 0, 0, 0⟩ = target := by
    rw [List.getD_eq_getElem?_getD, List.getElem?_replicate, if_pos hidx]
    rfl
  have hdata0 : ∀ p ∈ gridF W H,
      (List.replicate (W * H) target)[canvasIdx W p.1 p.2]? =
        some (if p ∈ (∅ : Finset (ℤ × ℤ)) then fill else target) := by
    intro p hp
    rw [List.getElem?_replicate, if_pos (canvasIdx_lt (mem_gridF.mp hp)),
      if_neg (Finset.not_mem_empty p)]
  have hmeas : 5 * ((gridF W H \ (∅ : Finset (ℤ × ℤ))).card)
      + ([((startX, startY) : ℤ × ℤ)] : List (ℤ × ℤ)).length < 5 * (W * H) + 2 := by
    rw [Finset.sdiff_empty, card_gridF]
    simp only [List.length_cons, List.length_nil]
    omega
  obtain ⟨V, d, hgo, hVsub, hVg, hstV, hcl, hdat⟩ :=
    floodFillGo_uniform W H target fill (5 * (W * H) + 2) [(startX, startY)] ∅
      (List.replicate (W * H) target) (Finset.empty_subset _) hdata0
      (fun v hv => absurd hv (Finset.not_mem_empty v)) hmeas
  obtain ⟨d2, hgo2, hlen2, h1⟩ :=
    floodFillGo_total W H target fill (5 * (W * H) + 2) [(startX, startY)] ∅
      (List.replicate (W * H) target) (Finset.empty_subset _) hmeas
  rw [hgo, Option.some.injEq] at hgo2
  have hlen : d.length = W * H := by
    rw [hgo2, hlen2, List.length_replicate]
  have hs : ((startX, startY) : ℤ × ℤ) ∈ V :=
    hstV (startX, startY) (List.mem_singleton.mpr rfl) hseedG
  have hall : ∀ p ∈ gridF W H, p ∈ V := gridF_reach W H V startX startY hseed hs hcl
  have hdfill : d = List.replicate (W * H) fill := by
    apply List.ext_getElem?
    intro n
    by_cases hn : n < W * H
    · have hmod : n % W < W := Nat.mod_lt n hW
      have hdiv : n / W < H := (Nat.div_lt_iff_lt_mul hW).mpr (by
        rw [Nat.mul_comm]
        exact hn)
      have hpin : isPixelInBounds W H ((n % W : ℕ) : ℤ) ((n / W : ℕ) : ℤ) := by
        refine ⟨Int.natCast_nonneg _, ?_, Int.natCast_nonneg _, ?_⟩
        · exact_mod_cast hmod
        · exact_mod_cast hdiv
      have hpg : ((((n % W : ℕ) : ℤ), ((n / W : ℕ) : ℤ)) : ℤ × ℤ) ∈ gridF W H :=
        mem_gridF.mpr hpin
      have hidxn : canvasIdx W ((n % W : ℕ) : ℤ) ((n / W : ℕ) : ℤ) = n := by
        unfold canvasIdx
        simp only [Int.toNat_natCast]
        calc n / W * W + n % W = W * (n / W) + n % W := by ring
          _ = n := Nat.div_add_mod n W
      have hv := hdat _ hpg
      rw [hidxn, if_pos (hall _ hpg)] at hv
      rw [hv, List.getElem?_replicate, if_pos hn]
    · rw [List.getElem?_eq_none (by rw [hlen]; omega : d.length ≤ n),
        List.getElem?_eq_none (by rw [List.length_replicate]; omega)]
  simp only [floodFill]
  rw [if_pos hseed, htarget, if_neg hne, hgo, hdfill]
  rfl

/-- Witness for C7: flood-filling the corner of an 8 by 8 all-white
buffer with opaque black makes all 64 pixels black. -/
theorem floodFill_uniform_full_coverage_witness :
    isPixelInBounds 8 8 0 0 ∧
      (⟨255, 255, 255, 255⟩ : RGBA) ≠ ⟨0, 0, 0, 255⟩ ∧
      floodFill ⟨8, 8, List.replicate (8 * 8) ⟨255, 255, 255, 255⟩⟩ 0 0 ⟨0, 0, 0, 255⟩ =
        some ⟨8, 8, List.replicate (8 * 8) ⟨0, 0, 0, 255⟩⟩ :=
  ⟨by decide, by decide,
    floodFill_uniform_full_coverage 8 8 ⟨255, 255, 255, 255⟩ ⟨0, 0, 0, 255⟩ 0 0
      (by decide) (by decide)⟩

/-- C10: for every buffer, seed, and hex fill color, flood fill
terminates, preserves the buffer dimensions, and every pixel it modifies
is written as the parsed fill color, whose alpha channel is exactly 255
because hexToRgba is called without an alpha argument. -/
theorem floodFillHex_modified_alpha255 (img : ImageData) (startX startY : ℤ)
    (hexMatch : Option (ℕ × ℕ × ℕ)) :
    ∃ out, floodFillHex img startX startY hexMatch = some out ∧
      out.width = img.width ∧ out.height = img.height ∧
      out.data.length = img.data.length ∧
      ∀ i : ℕ, out.data[i]? = img.data[i]? ∨
        (out.data[i]? = some (hexToRgba hexMatch 255) ∧
          (hexToRgba hexMatch 255).a = 255) := by
  unfold floodFillHex
  simp only [floodFill]
  by_cases hib : isPixelInBounds img.width img.height startX startY
  · rw [if_pos hib]
    by_cases heq : img.data.getD (canvasIdx img.width startX startY) ⟨0, 0, 0, 0⟩
        = hexToRgba hexMatch 255
    · rw [if_pos heq]
      exact ⟨img, rfl, rfl, rfl, rfl, fun i => Or.inl rfl⟩
    · rw [if_neg heq]
      obtain ⟨d, hgo, hlen, hpix⟩ :=
        floodFillGo_total img.width img.height
          (img.data.getD (canvasIdx img.width startX startY) ⟨0, 0, 0, 0⟩)
          (hexToRgba hexMatch 255)
          (5 * (img.width * img.height) + 2) [(startX, startY)] ∅ img.data
          (Finset.empty_subset _)
          (by
            rw [Finset.sdiff_empty, card_gridF]
            simp only [List.length_cons, List.length_nil]
            omega)
      rw [hgo]
      refine ⟨⟨img.width, img.height, d⟩, rfl, rfl, rfl, hlen, fun i => ?_⟩
      rcases hpix i with h | h
      · exact Or.inl h
      · exact Or.inr ⟨h, hexToRgba_a hexMatch 255⟩
  · rw [if_neg hib]
    exact ⟨img, rfl, rfl, rfl, rfl, fun i => Or.inl rfl⟩

end PixelArt
